import Mathlib

/-!
Verification development for the MergeTree insert-path writer
(`src/Storages/MergeTree/MergeTreeDataWriter.cpp`).

The data model is embedded row-major: a `Block` is a list of rows, each row a
list of natural-number cell values.  Column-wise operations of the source
(scatter by selector, min/max per column, per-column sort keys) are expressed
through row indices and column positions, which preserves their observable
behaviour on equi-length columns.  Fallible code returns `Except WErr`.
External collaborators (the merging algorithms, the calendar table, the
sorting routine) that live outside the covered source file are modelled from
the specification and are marked as such in their doc comments.
-/

namespace MergeTreeWriter

/-- A cell value of a block.  The claims under verification only need an
ordered, decidable value domain. -/
abbrev Value := Nat

/-- A row of a block: one cell per column, addressed by position. -/
abbrev Row := List Value

/-- Structured error kinds surfaced by the writer
(`ErrorCodes::LOGICAL_ERROR`, `ErrorCodes::TOO_MANY_PARTS`). -/
inductive WErr where
  | logicalError
  | tooManyParts
deriving DecidableEq, Repr

/-- Byte size of a block (`Block::bytes()`), modelled as the total number of
cells: every stored cell occupies at least one byte, so the size is zero
exactly when no cell is stored. -/
def blockBytes (rows : List Row) : Nat :=
  rows.foldl (fun acc r => acc + r.length) 0

/-- Sort key of a row: the values of the sorting-key columns, in key order
(`sort_description` built from `getSortingKeyColumns`, all directions
ascending). -/
def sortKey (cols : List Nat) (r : Row) : List Value :=
  cols.map (fun c => r.getD c 0)

/-- Lexicographic less-or-equal on sort keys, per-column ascending.
Modelled from the spec: the comparator underlying `isAlreadySorted` and
`stableGetPermutation` (§4.2, "lexicographic non-decreasing order over the
sort columns"); those routines live outside the covered source file. -/
def lexLe : List Value → List Value → Bool
  | [], _ => true
  | _ :: _, [] => false
  | a :: as, b :: bs => if a < b then true else if a = b then lexLe as bs else false

theorem lexLe_refl (a : List Value) : lexLe a a = true := by
  induction a with
  | nil => rfl
  | cons x xs ih => simp [lexLe, ih]

theorem lexLe_total (a b : List Value) : lexLe a b = true ∨ lexLe b a = true := by
  induction a generalizing b with
  | nil => exact .inl rfl
  | cons x xs ih =>
    cases b with
    | nil => exact .inr rfl
    | cons y ys =>
      rcases Nat.lt_trichotomy x y with h | h | h
      · left; simp [lexLe, h]
      · subst h
        rcases ih ys with h' | h'
        · left; simp [lexLe, h']
        · right; simp [lexLe, h']
      · right; simp [lexLe, h]

theorem lexLe_trans {a b c : List Value} (hab : lexLe a b = true)
    (hbc : lexLe b c = true) : lexLe a c = true := by
  induction a generalizing b c with
  | nil => rfl
  | cons x xs ih =>
    cases b with
    | nil => simp [lexLe] at hab
    | cons y ys =>
      cases c with
      | nil => simp [lexLe] at hbc
      | cons z zs =>
        simp only [lexLe] at hab hbc ⊢
        by_cases hxy : x < y
        · by_cases hyz : y < z
          · simp [Nat.lt_trans hxy hyz]
          · simp [hyz] at hbc
            obtain ⟨hyz', _⟩ := hbc
            subst hyz'
            simp [hxy]
        · simp [hxy] at hab
          obtain ⟨hxy', hab'⟩ := hab
          subst hxy'
          by_cases hyz : x < z
          · simp [hyz]
          · simp [hyz] at hbc
            obtain ⟨hyz', hbc'⟩ := hbc
            subst hyz'
            simp [hyz, ih hab' hbc']

theorem lexLe_antisymm {a b : List Value} (hlen : a.length = b.length)
    (hab : lexLe a b = true) (hba : lexLe b a = true) : a = b := by
  induction a generalizing b with
  | nil =>
    cases b with
    | nil => rfl
    | cons y ys => simp at hlen
  | cons x xs ih =>
    cases b with
    | nil => simp at hlen
    | cons y ys =>
      simp only [lexLe] at hab hba
      by_cases hxy : x < y
      · have : ¬ y < x := Nat.lt_asymm hxy
        simp [this, Nat.ne_of_gt hxy] at hba
      · simp [hxy] at hab
        obtain ⟨hxy', hab'⟩ := hab
        subst hxy'
        simp [Nat.lt_irrefl] at hba
        simp at hlen
        simp [ih hlen hab' hba]

theorem lexLe_of_not_lexLe {a b : List Value} (h : ¬ lexLe a b = true) :
    lexLe b a = true := by
  rcases lexLe_total a b with h' | h'
  · exact absurd h' h
  · exact h'

/-- Linear already-sorted test over adjacent rows.
Modelled from the spec: `isAlreadySorted` (§4.2, "Test already sorted by a
single linear pass"); the routine lives outside the covered source file. -/
def isAlreadySorted (rows : List Row) (cols : List Nat) : Bool :=
  match rows with
  | [] => true
  | [_] => true
  | a :: b :: rest =>
    lexLe (sortKey cols a) (sortKey cols b) && isAlreadySorted (b :: rest) cols

/-- Stable insertion of a row index into an index list that is already in
sort order: the new index goes after every index whose key is less or equal,
so a later-arriving index never overtakes an equal key. -/
def insertIdx (key : Nat → List Value) (i : Nat) : List Nat → List Nat
  | [] => [i]
  | j :: rest =>
    if lexLe (key j) (key i) then j :: insertIdx key i rest else i :: j :: rest

/-- Stable permutation of row indices sorting the block by its sort keys.
Modelled from the spec: `stableGetPermutation` (§4.2, "compute a stable
permutation such that applying it yields lexicographic non-decreasing order
over the sort columns"); the routine lives outside the covered source file. -/
def stableGetPermutation (rows : List Row) (cols : List Nat) : List Nat :=
  (List.range rows.length).foldl
    (fun acc i => insertIdx (fun j => sortKey cols (rows.getD j [])) i acc) []

/-- Application of an optional permutation to a block
(`IMergedBlockOutputStream::writeWithPermutation` semantics: no permutation
means the block is written as is). -/
def applyPerm (perm : Option (List Nat)) (rows : List Row) : List Row :=
  match perm with
  | none => rows
  | some p => p.map (fun i => rows.getD i [])

/-- Sort phase of `writeTempPart` (source lines 342-353): no permutation for
an empty sorting key; a linear already-sorted test that, when it succeeds,
records the already-sorted profile event and skips the permutation; otherwise
the stable sort permutation.  Returns the permutation pointer and whether the
already-sorted profile event was incremented. -/
def sortPhase (rows : List Row) (cols : List Nat) : Option (List Nat) × Bool :=
  if cols = [] then (none, false)
  else if isAlreadySorted rows cols then (none, true)
  else (some (stableGetPermutation rows cols), false)

/-- Rows emitted by the sort phase alone (the serializer applies the
permutation, if any, to the block). -/
def emittedRows (rows : List Row) (cols : List Nat) : List Row :=
  applyPerm (sortPhase rows cols).1 rows

/-- Ordering relation on row indices that captures both sortedness and
stability: keys non-decreasing, and on a key tie the earlier input index
comes first. -/
def SortRel (key : Nat → List Value) (i j : Nat) : Prop :=
  lexLe (key i) (key j) = true ∧ (key i = key j → i < j)

theorem insertIdx_perm (key : Nat → List Value) (i : Nat) (acc : List Nat) :
    (insertIdx key i acc).Perm (i :: acc) := by
  induction acc with
  | nil => simp [insertIdx]
  | cons j rest ih =>
    simp only [insertIdx]
    by_cases h : lexLe (key j) (key i) = true
    · simp only [h, if_true]
      exact ((ih.cons j).trans (List.Perm.swap i j rest)).symm.symm
    · simp [h]

theorem insertIdx_pairwise (key : Nat → List Value) (i : Nat) (acc : List Nat)
    (hlt : ∀ j ∈ acc, j < i) (hp : acc.Pairwise (SortRel key)) :
    (insertIdx key i acc).Pairwise (SortRel key) := by
  induction acc with
  | nil => simp [insertIdx, List.Pairwise]
  | cons j rest ih =>
    have hpj := List.pairwise_cons.mp hp
    simp only [insertIdx]
    by_cases h : lexLe (key j) (key i) = true
    · simp only [h, if_true]
      refine List.pairwise_cons.mpr ⟨?_, ih (fun x hx => hlt x (by simp [hx])) hpj.2⟩
      intro x hx
      have hx' : x = i ∨ x ∈ rest := by
        have := (insertIdx_perm key i rest).mem_iff.mp hx
        simpa using this
      rcases hx' with rfl | hx'
      · exact ⟨h, fun _ => hlt j (by simp)⟩
      · exact hpj.1 x hx'
    · simp only [h, if_false]
      refine List.pairwise_cons.mpr ⟨?_, hp⟩
      intro x hx
      have hle : lexLe (key i) (key j) = true := lexLe_of_not_lexLe h
      rcases List.mem_cons.mp hx with rfl | hx'
      · refine ⟨hle, fun heq => ?_⟩
        exact absurd (heq ▸ lexLe_refl (key i)) h
      · have hjx := hpj.1 x hx'
        refine ⟨lexLe_trans hle hjx.1, fun heq => ?_⟩
        exact absurd (heq ▸ hjx.1) h

theorem foldl_insertIdx_perm (key : Nat → List Value) :
    ∀ (L acc : List Nat),
      ((L.foldl (fun a i => insertIdx key i a) acc)).Perm (acc ++ L) := by
  intro L
  induction L with
  | nil => intro acc; simp
  | cons i rest ih =>
    intro acc
    simp only [List.foldl_cons]
    refine (ih (insertIdx key i acc)).trans ?_
    exact ((insertIdx_perm key i acc).append_right rest).trans List.perm_middle.symm

theorem foldl_insertIdx_pairwise (key : Nat → List Value) :
    ∀ (L acc : List Nat), acc.Pairwise (SortRel key) →
      (∀ j ∈ acc, ∀ i ∈ L, j < i) → L.Pairwise (· < ·) →
      ((L.foldl (fun a i => insertIdx key i a) acc)).Pairwise (SortRel key) := by
  intro L
  induction L with
  | nil => intro acc h _ _; simpa using h
  | cons i rest ih =>
    intro acc hacc hsep hL
    have hLp := List.pairwise_cons.mp hL
    simp only [List.foldl_cons]
    refine ih (insertIdx key i acc) ?_ ?_ hLp.2
    · exact insertIdx_pairwise key i acc (fun j hj => hsep j hj i (by simp)) hacc
    · intro j hj x hx
      have hj' : j = i ∨ j ∈ acc := by
        have := (insertIdx_perm key i acc).mem_iff.mp hj
        simpa using this
      rcases hj' with rfl | hj'
      · exact hLp.1 x hx
      · exact hsep j hj' x (by simp [hx])

theorem stableGetPermutation_perm (rows : List Row) (cols : List Nat) :
    (stableGetPermutation rows cols).Perm (List.range rows.length) := by
  have h := foldl_insertIdx_perm (fun j => sortKey cols (rows.getD j []))
    (List.range rows.length) []
  simpa [stableGetPermutation] using h

theorem stableGetPermutation_pairwise (rows : List Row) (cols : List Nat) :
    (stableGetPermutation rows cols).Pairwise
      (SortRel (fun j => sortKey cols (rows.getD j []))) := by
  refine foldl_insertIdx_pairwise _ (List.range rows.length) [] (by simp)
    (by simp) ?_
  exact List.pairwise_lt_range _

theorem getD_range_map (l : List Row) :
    (List.range l.length).map (fun i => l.getD i []) = l := by
  induction l with
  | nil => rfl
  | cons r rs ih =>
    rw [List.length_cons, List.range_succ_eq_map, List.map_cons, List.map_map]
    have h2 : ((fun i => (r :: rs).getD i []) ∘ fun x => x + 1)
        = (fun i => rs.getD i []) := by
      funext i
      simp [List.getD]
    rw [h2, ih]
    rfl

theorem isAlreadySorted_nil_cols (rows : List Row) :
    isAlreadySorted rows [] = true := by
  induction rows with
  | nil => rfl
  | cons a rest ih =>
    cases rest with
    | nil => rfl
    | cons b rest' =>
      simp only [isAlreadySorted, Bool.and_eq_true]
      exact ⟨rfl, ih⟩

theorem isAlreadySorted_chain (rows : List Row) (cols : List Nat)
    (h : isAlreadySorted rows cols = true) :
    rows.Chain' (fun a b => lexLe (sortKey cols a) (sortKey cols b) = true) := by
  induction rows with
  | nil => simp
  | cons a rest ih =>
    cases rest with
    | nil => simp
    | cons b rest' =>
      simp only [isAlreadySorted, Bool.and_eq_true] at h
      exact List.Chain'.cons h.1 (ih h.2)

theorem isAlreadySorted_pairwise (rows : List Row) (cols : List Nat)
    (h : isAlreadySorted rows cols = true) :
    rows.Pairwise (fun a b => lexLe (sortKey cols a) (sortKey cols b) = true) := by
  haveI : IsTrans Row (fun a b => lexLe (sortKey cols a) (sortKey cols b) = true) :=
    ⟨fun _ _ _ hab hbc => lexLe_trans hab hbc⟩
  exact List.chain'_iff_pairwise.mp (isAlreadySorted_chain rows cols h)

theorem range_pairwise_sortRel (rows : List Row) (cols : List Nat)
    (h : isAlreadySorted rows cols = true) :
    (List.range rows.length).Pairwise
      (SortRel (fun j => sortKey cols (rows.getD j []))) := by
  have hlt := List.pairwise_lt_range rows.length
  have hrows := isAlreadySorted_pairwise rows cols h
  have hle : (List.range rows.length).Pairwise
      (fun i j => lexLe (sortKey cols (rows.getD i [])) (sortKey cols (rows.getD j [])) = true) := by
    rw [List.pairwise_iff_get] at hrows ⊢
    intro i j hij
    have hi : (List.range rows.length).get i = i.1 := by simp
    have hj : (List.range rows.length).get j = j.1 := by simp
    rw [hi, hj]
    have hi' : i.1 < rows.length := by
      have := i.2; simpa using this
    have hj' : j.1 < rows.length := by
      have := j.2; simpa using this
    have := hrows ⟨i.1, hi'⟩ ⟨j.1, hj'⟩ (by simpa using hij)
    simpa [List.getD_eq_getElem?_getD, List.getElem?_eq_getElem, hi', hj'] using this
  exact (hle.and hlt).imp (fun {i j} hij => ⟨hij.1, fun _ => hij.2⟩)

/-- Existence form of the sorted-and-stable result of the sort phase: the
emitted rows are the image of an index permutation that is both
key-non-decreasing and stable. -/
theorem emittedRows_sorted_stable (rows : List Row) (cols : List Nat) :
    ∃ perm : List Nat, perm.Perm (List.range rows.length) ∧
      emittedRows rows cols = perm.map (fun i => rows.getD i []) ∧
      perm.Pairwise (SortRel (fun j => sortKey cols (rows.getD j []))) := by
  by_cases hs : isAlreadySorted rows cols = true
  · have hperm : (sortPhase rows cols).1 = none := by
      unfold sortPhase
      by_cases hc : cols = [] <;> simp [hc, hs]
    refine ⟨List.range rows.length, List.Perm.refl _, ?_, range_pairwise_sortRel rows cols hs⟩
    simp only [emittedRows, hperm, applyPerm]
    exact (getD_range_map rows).symm
  · by_cases hc : cols = []
    · exact absurd (hc ▸ isAlreadySorted_nil_cols rows) hs
    · refine ⟨stableGetPermutation rows cols, stableGetPermutation_perm rows cols, ?_,
        stableGetPermutation_pairwise rows cols⟩
      simp [emittedRows, sortPhase, hs, hc, applyPerm]

/-- Position of a partition key among the keys discovered so far.  This
mirrors the `partitions_map` hash-map lookup of `buildScatterSelector`
(source lines 64-74); keys are compared by value, which matches the 128-bit
hash lookup under the standing assumption that the hash is injective on the
partition tuples of one block. -/
def seenIdx (k : Row) : List Row → Option Nat
  | [] => none
  | s :: rest => if s = k then some 0 else (seenIdx k rest).map (· + 1)

/-- Loop state of `buildScatterSelector`: the distinct partition keys in
discovery order (standing in for the hash map together with
`partitions_count`), the first-row index of each partition
(`partition_num_to_first_row`), and the per-row partition selector.  The
source materialises the selector lazily once a second partition appears
(lines 86-95); rows seen before that point are implicitly partition 0, so
recording an entry for every row is observationally identical. -/
structure ScatterState where
  seen : List Row
  firstRows : List Nat
  selector : List Nat
deriving DecidableEq, Repr

/-- Row loop of `buildScatterSelector` (source lines 69-96): look the row's
partition key up; on a new key, fail with `TOO_MANY_PARTS` the moment the
count would exceed a non-zero `max_parts`, otherwise register the key. -/
def scatterLoop (maxParts : Nat) : List Row → ScatterState → Except WErr ScatterState
  | [], st => .ok st
  | k :: rest, st =>
    match seenIdx k st.seen with
    | some p => scatterLoop maxParts rest ⟨st.seen, st.firstRows, st.selector ++ [p]⟩
    | none =>
      if maxParts ≠ 0 ∧ maxParts ≤ st.seen.length then
        .error .tooManyParts
      else
        scatterLoop maxParts rest
          ⟨st.seen ++ [k], st.firstRows ++ [st.selector.length],
           st.selector ++ [st.seen.length]⟩

/-- Entry point of `buildScatterSelector` (source lines 57-97) on the
per-row partition keys: returns the first-row indices, the selector and the
number of partitions discovered. -/
def buildScatterSelector (keys : List Row) (maxParts : Nat) :
    Except WErr (List Nat × List Nat × Nat) :=
  match scatterLoop maxParts keys ⟨[], [], []⟩ with
  | .error e => .error e
  | .ok st => .ok (st.firstRows, st.selector, st.seen.length)

/-- Distinct keys of a list in first-discovery order, the reference value for
the scatter loop's `seen` component. -/
def distinctKeys (l : List Row) : List Row :=
  l.foldl (fun acc k => if k ∈ acc then acc else acc ++ [k]) []

/-- Rows of one scattered sub-block: the rows whose selector entry names the
given partition, in input order (`IColumn::scatter` keeps relative order and
the same selector is used for every column, source lines 200-205). -/
def bucket (i : Nat) : List Row → List Nat → List Row
  | [], _ => []
  | _, [] => []
  | r :: rs, s :: ss => if s = i then r :: bucket i rs ss else bucket i rs ss

/-- Effects of `splitBlockIntoParts` that are observable to its collaborators:
the schema check (`metadata_snapshot->check`) and the evaluation of the
partition-key expression. -/
inductive SplitEffect where
  | schemaCheck
  | evalPartitionKey
deriving DecidableEq, Repr

/-- Input of `splitBlockIntoParts`: the block (possibly a null block), whether
the table has a partition key, and the partition-key expression as a per-row
tuple evaluation. -/
structure SplitInput where
  null : Bool
  rows : List Row
  hasPartitionKey : Bool
  partitionOf : Row → Row

/-- Partition tuple of a row as `splitBlockIntoParts` sees it: the evaluated
partition expression when the table is partitioned, the empty tuple
otherwise. -/
def rowPartition (inp : SplitInput) (r : Row) : Row :=
  if inp.hasPartitionKey then inp.partitionOf r else []

/-- Partition tuple of the partition numbered `p`: the evaluated partition
key of that partition's first row (the `get_partition` lambda, source lines
180-186). -/
def getPartitionTuple (inp : SplitInput) (firstRows : List Nat) (p : Nat) : Row :=
  (inp.rows.map inp.partitionOf).getD (firstRows.getD p 0) []

/-- Embedding of `MergeTreeDataWriter::splitBlockIntoParts` (source lines
149-208): empty or null blocks return no sub-blocks before any check runs;
an unpartitioned table returns the whole block with the empty tuple; otherwise
the partition keys are evaluated, the scatter selector built (which may fail
with `TOO_MANY_PARTS`), a single discovered partition returns the original
block, and two or more partitions scatter every column by the selector. -/
def splitBlockIntoParts (inp : SplitInput) (maxParts : Nat) :
    Except WErr (List (List Row × Row) × List SplitEffect) :=
  if inp.null = true ∨ inp.rows = [] then .ok ([], [])
  else if inp.hasPartitionKey = false then
    .ok ([(inp.rows, [])], [.schemaCheck])
  else
    match buildScatterSelector (inp.rows.map inp.partitionOf) maxParts with
    | .error e => .error e
    | .ok (firstRows, selector, count) =>
      if count = 1 then
        .ok ([(inp.rows, getPartitionTuple inp firstRows 0)],
          [.schemaCheck, .evalPartitionKey])
      else
        .ok ((List.range count).map
          (fun i => (bucket i inp.rows selector, getPartitionTuple inp firstRows i)),
          [.schemaCheck, .evalPartitionKey])

theorem seenIdx_eq_none (k : Row) (l : List Row) :
    seenIdx k l = none ↔ k ∉ l := by
  induction l with
  | nil => simp [seenIdx]
  | cons s rest ih =>
    by_cases h : s = k
    · subst h
      simp [seenIdx]
    · have h' : ¬ k = s := fun hk => h hk.symm
      simp [seenIdx, h, h', ih]

theorem seenIdx_some_get (k : Row) (l : List Row) (p : Nat)
    (h : seenIdx k l = some p) : l[p]? = some k := by
  induction l generalizing p with
  | nil => simp [seenIdx] at h
  | cons s rest ih =>
    by_cases hs : s = k
    · subst hs
      simp [seenIdx] at h
      simp [← h]
    · simp [seenIdx, hs] at h
      obtain ⟨q, hq, rfl⟩ := h
      simpa using ih q hq

theorem seenIdx_some_lt (k : Row) (l : List Row) (p : Nat)
    (h : seenIdx k l = some p) : p < l.length := by
  have := seenIdx_some_get k l p h
  exact List.getElem?_eq_some_iff.mp this |>.1

/-- Invariant of the scatter loop relating the state to the prefix of keys
already processed. -/
def ScatterInv (ks : List Row) (st : ScatterState) : Prop :=
  st.seen = distinctKeys ks ∧
  st.selector.length = ks.length ∧
  (∀ (j : Nat) (k : Row), ks[j]? = some k →
    ∃ p : Nat, st.selector[j]? = some p ∧ st.seen[p]? = some k) ∧
  st.firstRows.length = st.seen.length ∧
  (∀ (p : Nat) (s : Row), st.seen[p]? = some s →
    ∃ f : Nat, st.firstRows[p]? = some f ∧ ks[f]? = some s)

theorem distinctKeys_append_mem {ks : List Row} {k : Row}
    (h : k ∈ distinctKeys ks) : distinctKeys (ks ++ [k]) = distinctKeys ks := by
  unfold distinctKeys at h ⊢
  rw [List.foldl_append, List.foldl_cons, List.foldl_nil]
  exact if_pos h

theorem distinctKeys_append_not_mem {ks : List Row} {k : Row}
    (h : k ∉ distinctKeys ks) : distinctKeys (ks ++ [k]) = distinctKeys ks ++ [k] := by
  unfold distinctKeys at h ⊢
  rw [List.foldl_append, List.foldl_cons, List.foldl_nil]
  exact if_neg h

theorem scatterInv_nil : ScatterInv [] ⟨[], [], []⟩ := by
  refine ⟨rfl, rfl, ?_, rfl, ?_⟩ <;> intro _ _ h <;> simp at h

theorem scatterInv_step_known {ks : List Row} {st : ScatterState} {k : Row} {p : Nat}
    (hinv : ScatterInv ks st) (hidx : seenIdx k st.seen = some p) :
    ScatterInv (ks ++ [k]) ⟨st.seen, st.firstRows, st.selector ++ [p]⟩ := by
  obtain ⟨hseen, hlen, hmap, hfrlen, hfr⟩ := hinv
  have hkmem : k ∈ st.seen := by
    by_contra hk
    rw [← seenIdx_eq_none] at hk
    rw [hk] at hidx
    exact Option.noConfusion hidx
  refine ⟨?_, ?_, ?_, hfrlen, ?_⟩
  · rw [distinctKeys_append_mem (hseen ▸ hkmem)]
    exact hseen
  · simp [hlen]
  · intro j k' hj
    by_cases hjlt : j < ks.length
    · rw [List.getElem?_append_left hjlt] at hj
      obtain ⟨q, hq1, hq2⟩ := hmap j k' hj
      exact ⟨q, by rw [List.getElem?_append_left (hlen ▸ (List.getElem?_eq_some_iff.mp hq1).1)]; exact hq1, hq2⟩
    · have hj' : j = ks.length := by
        have := (List.getElem?_eq_some_iff.mp hj).1
        simp at this
        omega
      subst hj'
      rw [List.getElem?_concat_length] at hj
      injection hj with hj2
      subst hj2
      refine ⟨p, ?_, ?_⟩
      · rw [← hlen, List.getElem?_concat_length]
      · exact seenIdx_some_get k st.seen p hidx
  · intro q s hq
    obtain ⟨f, hf1, hf2⟩ := hfr q s hq
    exact ⟨f, hf1, by rw [List.getElem?_append_left (List.getElem?_eq_some_iff.mp hf2).1]; exact hf2⟩

theorem scatterInv_step_new {ks : List Row} {st : ScatterState} {k : Row}
    (hinv : ScatterInv ks st) (hidx : seenIdx k st.seen = none) :
    ScatterInv (ks ++ [k])
      ⟨st.seen ++ [k], st.firstRows ++ [st.selector.length],
       st.selector ++ [st.seen.length]⟩ := by
  obtain ⟨hseen, hlen, hmap, hfrlen, hfr⟩ := hinv
  have hkmem : k ∉ st.seen := (seenIdx_eq_none k st.seen).mp hidx
  refine ⟨?_, ?_, ?_, ?_, ?_⟩
  · rw [distinctKeys_append_not_mem (hseen ▸ hkmem)]
    rw [hseen]
  · simp [hlen]
  · intro j k' hj
    by_cases hjlt : j < ks.length
    · rw [List.getElem?_append_left hjlt] at hj
      obtain ⟨q, hq1, hq2⟩ := hmap j k' hj
      refine ⟨q, ?_, ?_⟩
      · rw [List.getElem?_append_left (hlen ▸ (List.getElem?_eq_some_iff.mp hq1).1)]
        exact hq1
      · rw [List.getElem?_append_left (List.getElem?_eq_some_iff.mp hq2).1]
        exact hq2
    · have hj' : j = ks.length := by
        have := (List.getElem?_eq_some_iff.mp hj).1
        simp at this
        omega
      subst hj'
      rw [List.getElem?_concat_length] at hj
      refine ⟨st.seen.length, ?_, ?_⟩
      · rw [← hlen, List.getElem?_concat_length]
      · rw [List.getElem?_concat_length]
        exact hj
  · simp [hfrlen]
  · intro q s hq
    by_cases hqlt : q < st.seen.length
    · rw [List.getElem?_append_left hqlt] at hq
      obtain ⟨f, hf1, hf2⟩ := hfr q s hq
      refine ⟨f, ?_, ?_⟩
      · rw [List.getElem?_append_left (hfrlen ▸ hqlt)]
        exact hf1
      · rw [List.getElem?_append_left (List.getElem?_eq_some_iff.mp hf2).1]
        exact hf2
    · have hq' : q = st.seen.length := by
        have := (List.getElem?_eq_some_iff.mp hq).1
        simp at this
        omega
      subst hq'
      rw [List.getElem?_concat_length] at hq
      refine ⟨st.selector.length, ?_, ?_⟩
      · rw [← hfrlen, List.getElem?_concat_length]
      · rw [hlen, List.getElem?_concat_length]
        exact hq

theorem scatterLoop_ok_inv {maxParts : Nat} :
    ∀ {rest : List Row} {ks : List Row} {st st' : ScatterState},
      ScatterInv ks st → scatterLoop maxParts rest st = .ok st' →
      ScatterInv (ks ++ rest) st' := by
  intro rest
  induction rest with
  | nil =>
    intro ks st st' hinv hok
    simp only [scatterLoop] at hok
    injection hok with h
    simpa [← h] using hinv
  | cons k rest ih =>
    intro ks st st' hinv hok
    simp only [scatterLoop] at hok
    have hassoc : ks ++ k :: rest = (ks ++ [k]) ++ rest := by simp
    cases hidx : seenIdx k st.seen with
    | some p =>
      rw [hidx] at hok
      rw [hassoc]
      exact ih (scatterInv_step_known hinv hidx) hok
    | none =>
      rw [hidx] at hok
      by_cases hmp : maxParts ≠ 0 ∧ maxParts ≤ st.seen.length
      · simp [hmp] at hok
      · simp only [if_neg hmp] at hok
        rw [hassoc]
        exact ih (scatterInv_step_new hinv hidx) hok

theorem distinctKeys_length_mono (l1 l2 : List Row) :
    (distinctKeys l1).length ≤ (distinctKeys (l1 ++ l2)).length := by
  induction l2 generalizing l1 with
  | nil => simp
  | cons k rest ih =>
    have h1 : l1 ++ k :: rest = (l1 ++ [k]) ++ rest := by simp
    rw [h1]
    refine le_trans ?_ (ih (l1 ++ [k]))
    by_cases hk : k ∈ distinctKeys l1
    · rw [distinctKeys_append_mem hk]
    · rw [distinctKeys_append_not_mem hk]
      simp

theorem scatterLoop_append (maxParts : Nat) (l1 l2 : List Row) (st : ScatterState) :
    scatterLoop maxParts (l1 ++ l2) st =
      match scatterLoop maxParts l1 st with
      | .error e => .error e
      | .ok st' => scatterLoop maxParts l2 st' := by
  induction l1 generalizing st with
  | nil => simp [scatterLoop]
  | cons k rest ih =>
    simp only [List.cons_append, scatterLoop]
    cases seenIdx k st.seen with
    | some p => exact ih _
    | none =>
      by_cases hmp : maxParts ≠ 0 ∧ maxParts ≤ st.seen.length
      · simp [hmp]
      · simp only [if_neg hmp]
        exact ih _

theorem scatterLoop_cons_known (mp : Nat) (k : Row) (rest : List Row)
    (st : ScatterState) (p : Nat) (hidx : seenIdx k st.seen = some p) :
    scatterLoop mp (k :: rest) st =
      scatterLoop mp rest ⟨st.seen, st.firstRows, st.selector ++ [p]⟩ := by
  simp only [scatterLoop]
  rw [hidx]

theorem scatterLoop_cons_err (mp : Nat) (k : Row) (rest : List Row)
    (st : ScatterState) (hidx : seenIdx k st.seen = none) (h1 : mp ≠ 0)
    (h2 : mp ≤ st.seen.length) :
    scatterLoop mp (k :: rest) st = .error .tooManyParts := by
  simp only [scatterLoop]
  rw [hidx]
  exact if_pos ⟨h1, h2⟩

theorem scatterLoop_cons_new (mp : Nat) (k : Row) (rest : List Row)
    (st : ScatterState) (hidx : seenIdx k st.seen = none)
    (hcap : ¬ (mp ≠ 0 ∧ mp ≤ st.seen.length)) :
    scatterLoop mp (k :: rest) st =
      scatterLoop mp rest
        ⟨st.seen ++ [k], st.firstRows ++ [st.selector.length],
         st.selector ++ [st.seen.length]⟩ := by
  simp only [scatterLoop]
  rw [hidx]
  exact if_neg hcap

theorem scatterLoop_error_eq (maxParts : Nat) :
    ∀ (rest : List Row) (st : ScatterState) (e : WErr),
      scatterLoop maxParts rest st = .error e → e = .tooManyParts := by
  intro rest
  induction rest with
  | nil => intro st e h; simp [scatterLoop] at h
  | cons k rest ih =>
    intro st e h
    cases hidx : seenIdx k st.seen with
    | some p =>
      rw [scatterLoop_cons_known maxParts k rest st p hidx] at h
      exact ih _ e h
    | none =>
      by_cases hmp : maxParts ≠ 0 ∧ maxParts ≤ st.seen.length
      · rw [scatterLoop_cons_err maxParts k rest st hidx hmp.1 hmp.2] at h
        injection h with h2
        exact h2.symm
      · rw [scatterLoop_cons_new maxParts k rest st hidx hmp] at h
        exact ih _ e h

theorem scatterLoop_zero_ok :
    ∀ (rest : List Row) (st : ScatterState), ∃ st', scatterLoop 0 rest st = .ok st' := by
  intro rest
  induction rest with
  | nil => intro st; exact ⟨st, rfl⟩
  | cons k rest ih =>
    intro st
    simp only [scatterLoop]
    cases seenIdx k st.seen with
    | some p => exact ih _
    | none => simpa using ih _

theorem scatterLoop_ok_iff (maxParts : Nat) (hmp0 : maxParts ≠ 0) :
    ∀ (rest ks : List Row) (st : ScatterState), ScatterInv ks st →
      st.seen.length ≤ maxParts →
      ((∃ st', scatterLoop maxParts rest st = .ok st') ↔
        (distinctKeys (ks ++ rest)).length ≤ maxParts) := by
  intro rest
  induction rest with
  | nil =>
    intro ks st hinv hle
    simp only [scatterLoop, List.append_nil]
    refine ⟨fun _ => ?_, fun _ => ⟨st, rfl⟩⟩
    rw [← hinv.1]
    exact hle
  | cons k rest ih =>
    intro ks st hinv hle
    have hassoc : ks ++ k :: rest = (ks ++ [k]) ++ rest := by simp
    cases hidx : seenIdx k st.seen with
    | some p =>
      have hmem : k ∈ st.seen := by
        by_contra hk
        rw [← seenIdx_eq_none] at hk
        rw [hk] at hidx
        exact Option.noConfusion hidx
      have hinv' := scatterInv_step_known hinv hidx
      have hseen' : distinctKeys (ks ++ [k]) = distinctKeys ks := by
        exact distinctKeys_append_mem (hinv.1 ▸ hmem)
      rw [hassoc, scatterLoop_cons_known maxParts k rest st p hidx]
      exact ih (ks ++ [k]) _ hinv' (by simpa [hseen', ← hinv.1] using hle)
    | none =>
      have hmem : k ∉ st.seen := (seenIdx_eq_none k st.seen).mp hidx
      have hseen' : distinctKeys (ks ++ [k]) = distinctKeys ks ++ [k] :=
        distinctKeys_append_not_mem (hinv.1 ▸ hmem)
      by_cases hcap : maxParts ≤ st.seen.length
      · rw [scatterLoop_cons_err maxParts k rest st hidx hmp0 hcap]
        constructor
        · rintro ⟨st', hst'⟩
          exact Except.noConfusion hst'
        · intro hlen
          exfalso
          have h1 : (distinctKeys (ks ++ [k])).length ≤ (distinctKeys ((ks ++ [k]) ++ rest)).length :=
            distinctKeys_length_mono _ _
          rw [hseen'] at h1
          have h2 : (distinctKeys ks).length + 1 ≤ maxParts := by
            rw [← hassoc] at h1
            calc (distinctKeys ks).length + 1
                = (distinctKeys ks ++ [k]).length := by simp
              _ ≤ (distinctKeys (ks ++ k :: rest)).length := h1
              _ ≤ maxParts := hlen
          rw [← hinv.1] at h2
          omega
      · have hif : ¬ (maxParts ≠ 0 ∧ maxParts ≤ st.seen.length) := fun h => hcap h.2
        rw [hassoc, scatterLoop_cons_new maxParts k rest st hidx hif]
        have hinv' := scatterInv_step_new hinv hidx
        refine ih (ks ++ [k]) _ hinv' ?_
        simp only [List.length_append, List.length_cons, List.length_nil]
        omega

theorem bucket_nil_selector (i : Nat) (rs : List Row) : bucket i rs [] = [] := by
  cases rs <;> rfl

theorem bucket_nil_rows (i : Nat) (ss : List Nat) : bucket i [] ss = [] := by
  cases ss <;> rfl

theorem mem_bucket {i : Nat} {rs : List Row} {ss : List Nat} {r : Row} :
    r ∈ bucket i rs ss ↔ ∃ j : Nat, rs[j]? = some r ∧ ss[j]? = some i := by
  induction rs generalizing ss with
  | nil =>
    simp only [bucket]
    constructor
    · intro h; simp at h
    · rintro ⟨j, hj, _⟩; simp at hj
  | cons a rs' ih =>
    cases ss with
    | nil =>
      rw [bucket_nil_selector]
      constructor
      · intro h; simp at h
      · rintro ⟨j, _, hj⟩; simp at hj
    | cons s ss' =>
      simp only [bucket]
      by_cases hs : s = i
      · subst hs
        simp only [eq_self_iff_true, if_true, List.mem_cons]
        constructor
        · rintro (rfl | hmem)
          · exact ⟨0, by simp, by simp⟩
          · obtain ⟨j, hj1, hj2⟩ := ih.mp hmem
            exact ⟨j + 1, by simpa using hj1, by simpa using hj2⟩
        · rintro ⟨j, hj1, hj2⟩
          cases j with
          | zero =>
            left
            rw [List.getElem?_cons_zero] at hj1
            injection hj1 with h
            exact h.symm
          | succ j' =>
            right
            exact ih.mpr ⟨j', by simpa using hj1, by simpa using hj2⟩
      · rw [if_neg hs]
        constructor
        · intro hmem
          obtain ⟨j, hj1, hj2⟩ := ih.mp hmem
          exact ⟨j + 1, by simpa using hj1, by simpa using hj2⟩
        · rintro ⟨j, hj1, hj2⟩
          cases j with
          | zero =>
            rw [List.getElem?_cons_zero] at hj2
            injection hj2 with h
            exact absurd h hs
          | succ j' =>
            exact ih.mpr ⟨j', by simpa using hj1, by simpa using hj2⟩

theorem flatten_map_insert_bucket (r : Row) (s : Nat) (f : Nat → List Row) :
    ∀ (L : List Nat), L.Nodup → s ∈ L →
      ((L.map (fun i => if s = i then r :: f i else f i)).flatten).Perm
        (r :: (L.map f).flatten) := by
  intro L
  induction L with
  | nil => intro _ h; simp at h
  | cons a L' ih =>
    intro hnd hmem
    have hnd' := List.nodup_cons.mp hnd
    by_cases ha : s = a
    · subst ha
      have hcongr : L'.map (fun i => if s = i then r :: f i else f i) = L'.map f := by
        refine List.map_congr_left ?_
        intro i hi
        have : s ≠ i := fun h => hnd'.1 (h ▸ hi)
        rw [if_neg this]
      simp only [List.map_cons, if_pos rfl, hcongr, List.flatten_cons, List.cons_append]
      exact List.Perm.refl _
    · have hmem' : s ∈ L' := by
        rcases List.mem_cons.mp hmem with h | h
        · exact absurd h ha
        · exact h
      simp only [List.map_cons, if_neg ha, List.flatten_cons]
      refine ((ih hnd'.2 hmem').append_left (f a)).trans ?_
      exact List.perm_middle

theorem flatten_buckets_perm :
    ∀ (rs : List Row) (ss : List Nat) (n : Nat), ss.length = rs.length →
      (∀ s ∈ ss, s < n) →
      (((List.range n).map (fun i => bucket i rs ss)).flatten).Perm rs := by
  intro rs
  induction rs with
  | nil =>
    intro ss n _ _
    have h : (List.range n).map (fun i => bucket i [] ss)
        = (List.range n).map (fun _ => ([] : List Row)) := by
      refine List.map_congr_left ?_
      intro i _
      exact bucket_nil_rows i ss
    rw [h]
    have h2 : ((List.range n).map (fun _ => ([] : List Row))).flatten = [] := by
      simp
    rw [h2]
  | cons r rs' ih =>
    intro ss n hlen hbound
    cases ss with
    | nil => simp at hlen
    | cons s ss' =>
      have hmap : (List.range n).map (fun i => bucket i (r :: rs') (s :: ss'))
          = (List.range n).map (fun i => if s = i then r :: bucket i rs' ss' else bucket i rs' ss') := by
        refine List.map_congr_left ?_
        intro i _
        simp only [bucket]
      rw [hmap]
      have hsn : s ∈ List.range n := List.mem_range.mpr (hbound s (by simp))
      refine (flatten_map_insert_bucket r s (fun i => bucket i rs' ss') (List.range n)
        (List.nodup_range n) hsn).trans ?_
      refine List.Perm.cons r ?_
      refine ih ss' n (by simpa using hlen) (fun x hx => hbound x (by simp [hx]))

theorem buildScatterSelector_eq_ok (keys : List Row) (mp : Nat) (st : ScatterState)
    (hres : scatterLoop mp keys ⟨[], [], []⟩ = .ok st) :
    buildScatterSelector keys mp = .ok (st.firstRows, st.selector, st.seen.length) := by
  unfold buildScatterSelector
  rw [hres]

theorem buildScatterSelector_eq_err (keys : List Row) (mp : Nat) (e : WErr)
    (hres : scatterLoop mp keys ⟨[], [], []⟩ = .error e) :
    buildScatterSelector keys mp = .error e := by
  unfold buildScatterSelector
  rw [hres]

theorem buildScatterSelector_ok (keys : List Row) (mp : Nat) (fr sel : List Nat)
    (cnt : Nat) (h : buildScatterSelector keys mp = .ok (fr, sel, cnt)) :
    sel.length = keys.length ∧
    cnt = (distinctKeys keys).length ∧
    (∀ (j : Nat) (k : Row), keys[j]? = some k →
      ∃ p : Nat, sel[j]? = some p ∧ p < cnt ∧
        ∃ f : Nat, fr[p]? = some f ∧ keys[f]? = some k) ∧
    (∀ s ∈ sel, s < cnt) := by
  cases hres : scatterLoop mp keys ⟨[], [], []⟩ with
  | error e =>
    rw [buildScatterSelector_eq_err keys mp e hres] at h
    exact Except.noConfusion h
  | ok st =>
    rw [buildScatterSelector_eq_ok keys mp st hres] at h
    injection h with h2
    have h3 : st.firstRows = fr ∧ st.selector = sel ∧ st.seen.length = cnt := by
      simpa [Prod.ext_iff] using h2
    obtain ⟨hfr, hsel, hcnt⟩ := h3
    subst hfr; subst hsel; subst hcnt
    have hinv : ScatterInv keys st := by
      have := scatterLoop_ok_inv scatterInv_nil hres
      simpa using this
    obtain ⟨hseen, hlen, hmap, _, hfrc⟩ := hinv
    refine ⟨hlen, by rw [hseen], ?_, ?_⟩
    · intro j k hj
      obtain ⟨p, hp1, hp2⟩ := hmap j k hj
      refine ⟨p, hp1, (List.getElem?_eq_some_iff.mp hp2).1, ?_⟩
      exact hfrc p k hp2
    · intro s hs
      obtain ⟨j, hj⟩ := List.getElem?_of_mem hs
      have hjlt : j < keys.length := hlen ▸ (List.getElem?_eq_some_iff.mp hj).1
      have hk : keys[j]? = some keys[j] := List.getElem?_eq_getElem hjlt
      obtain ⟨p, hp1, hp2⟩ := hmap j _ hk
      have hps : p = s := by
        rw [hj] at hp1
        injection hp1 with h3
        exact h3.symm
      subst hps
      exact (List.getElem?_eq_some_iff.mp hp2).1

/-- C2: for every input block and every `max_parts > 0`, the scatter selector
raises `TOO_MANY_PARTS` exactly when more than `max_parts` distinct partition
tuples occur, the failure is already determined by the prefix of the row scan
on which the `(max_parts+1)`-th distinct tuple is discovered (any continuation
of that prefix fails identically, so the check does not wait for the end of
the scan), and `max_parts = 0` disables the check entirely. -/
theorem claim_C2 (keys extra : List Row) (maxParts : Nat) :
    (maxParts = 0 → ∃ res, buildScatterSelector keys 0 = .ok res) ∧
    (maxParts ≠ 0 →
      ((∃ res, buildScatterSelector keys maxParts = .ok res) ↔
        (distinctKeys keys).length ≤ maxParts)) ∧
    (maxParts ≠ 0 → maxParts < (distinctKeys keys).length →
      buildScatterSelector (keys ++ extra) maxParts = .error .tooManyParts) := by
  have hiff : ∀ (ks : List Row), maxParts ≠ 0 →
      ((∃ res, buildScatterSelector ks maxParts = .ok res) ↔
        (distinctKeys ks).length ≤ maxParts) := by
    intro ks hmp
    have h := scatterLoop_ok_iff maxParts hmp ks [] ⟨[], [], []⟩ scatterInv_nil
      (by simp)
    simp only [List.nil_append] at h
    constructor
    · rintro ⟨res, hres⟩
      cases hsc : scatterLoop maxParts ks ⟨[], [], []⟩ with
      | error e =>
        rw [buildScatterSelector_eq_err ks maxParts e hsc] at hres
        exact Except.noConfusion hres
      | ok st => exact h.mp ⟨st, hsc⟩
    · intro hlen
      obtain ⟨st, hst⟩ := h.mpr hlen
      exact ⟨_, buildScatterSelector_eq_ok ks maxParts st hst⟩
  refine ⟨?_, hiff keys, ?_⟩
  · intro _
    obtain ⟨st, hst⟩ := scatterLoop_zero_ok keys ⟨[], [], []⟩
    exact ⟨_, buildScatterSelector_eq_ok keys 0 st hst⟩
  · intro hmp hgt
    have hmono := distinctKeys_length_mono keys extra
    have hnotok : ¬ ∃ res, buildScatterSelector (keys ++ extra) maxParts = .ok res := by
      rw [hiff (keys ++ extra) hmp]
      omega
    cases hsc : scatterLoop maxParts (keys ++ extra) ⟨[], [], []⟩ with
    | ok st =>
      exact absurd ⟨_, buildScatterSelector_eq_ok _ maxParts st hsc⟩ hnotok
    | error e =>
      have he := scatterLoop_error_eq maxParts _ _ e hsc
      subst he
      exact buildScatterSelector_eq_err _ maxParts _ hsc

/-- Witness for C2 at concrete inputs: three distinct tuples with
`max_parts = 1` fail with `TOO_MANY_PARTS`, and with `max_parts = 2` two
distinct tuples are accepted. -/
theorem claim_C2_witness :
    buildScatterSelector [[0], [1], [2]] 1 = .error .tooManyParts ∧
    ((∃ res, buildScatterSelector [[0], [1]] 2 = .ok res) ↔
      (distinctKeys [[0], [1]]).length ≤ 2) :=
  ⟨(claim_C2 [[0], [1]] [[2]] 1).2.2 (by decide) (by decide),
   (claim_C2 [[0], [1]] [] 2).2.1 (by decide)⟩

/-- C3: the sub-blocks returned by `splitBlockIntoParts` concatenate back to
the input block as a multiset of rows, and within each returned sub-block
every row's partition tuple equals the tuple paired with that sub-block. -/
theorem claim_C3 (inp : SplitInput) (maxParts : Nat)
    (parts : List (List Row × Row)) (effs : List SplitEffect)
    (hnull : inp.null = false) (hne : inp.rows ≠ [])
    (hok : splitBlockIntoParts inp maxParts = .ok (parts, effs)) :
    ((parts.map Prod.fst).flatten).Perm inp.rows ∧
    ∀ pr ∈ parts, ∀ r ∈ pr.1, rowPartition inp r = pr.2 := by
  have hcond : ¬ (inp.null = true ∨ inp.rows = []) := by
    simp [hnull, hne]
  unfold splitBlockIntoParts at hok
  rw [if_neg hcond] at hok
  by_cases hpk : inp.hasPartitionKey = false
  · rw [if_pos hpk] at hok
    injection hok with h2
    have h3 : [(inp.rows, ([] : Row))] = parts ∧ [SplitEffect.schemaCheck] = effs := by
      simpa [Prod.ext_iff] using h2
    obtain ⟨hparts, _⟩ := h3
    subst hparts
    constructor
    · simp
    · intro pr hpr r hr
      simp at hpr
      rw [hpr]
      simp [rowPartition, hpk]
  · rw [if_neg hpk] at hok
    have hpk' : inp.hasPartitionKey = true := by
      revert hpk; cases inp.hasPartitionKey <;> simp
    cases hbss : buildScatterSelector (inp.rows.map inp.partitionOf) maxParts with
    | error e =>
      rw [hbss] at hok
      exact Except.noConfusion hok
    | ok res =>
      obtain ⟨fr, sel, cnt⟩ := res
      rw [hbss] at hok
      obtain ⟨hsellen, hcntd, hmap, hbound⟩ :=
        buildScatterSelector_ok (inp.rows.map inp.partitionOf) maxParts fr sel cnt hbss
      have hok2 : (if cnt = 1 then
          (.ok ([(inp.rows, getPartitionTuple inp fr 0)],
            [SplitEffect.schemaCheck, SplitEffect.evalPartitionKey]) :
            Except WErr (List (List Row × Row) × List SplitEffect))
        else
          .ok ((List.range cnt).map
            (fun i => (bucket i inp.rows sel, getPartitionTuple inp fr i)),
            [SplitEffect.schemaCheck, SplitEffect.evalPartitionKey]))
          = .ok (parts, effs) := hok
      have hrowkey : ∀ r ∈ inp.rows, ∃ j : Nat,
          inp.rows[j]? = some r ∧ (inp.rows.map inp.partitionOf)[j]? = some (inp.partitionOf r) := by
        intro r hr
        obtain ⟨j, hj⟩ := List.getElem?_of_mem hr
        exact ⟨j, hj, by rw [List.getElem?_map, hj]; rfl⟩
      have htuple : ∀ (i : Nat) (r : Row), i < cnt →
          (∃ j : Nat, inp.rows[j]? = some r ∧ sel[j]? = some i) →
          getPartitionTuple inp fr i = inp.partitionOf r := by
        intro i r _ ⟨j, hj1, hj2⟩
        have hk : (inp.rows.map inp.partitionOf)[j]? = some (inp.partitionOf r) := by
          rw [List.getElem?_map, hj1]; rfl
        obtain ⟨p, hp1, _, f, hf1, hf2⟩ := hmap j _ hk
        have hpi : p = i := by
          rw [hj2] at hp1
          injection hp1 with h3
          exact h3.symm
        subst hpi
        unfold getPartitionTuple
        rw [List.getD_eq_getElem?_getD, List.getD_eq_getElem?_getD, hf1]
        simp only [Option.getD_some]
        rw [hf2]
        rfl
      by_cases hcnt : cnt = 1
      · rw [if_pos hcnt] at hok2
        injection hok2 with h2
        have h3 : [(inp.rows, getPartitionTuple inp fr 0)] = parts ∧
            [SplitEffect.schemaCheck, SplitEffect.evalPartitionKey] = effs := by
          simpa [Prod.ext_iff] using h2
        obtain ⟨hparts, _⟩ := h3
        subst hparts
        constructor
        · simp
        · intro pr hpr r hr
          simp at hpr
          rw [hpr]
          simp only [rowPartition, hpk', if_true]
          obtain ⟨j, hj1, hj2⟩ := hrowkey r (by rw [hpr] at hr; exact hr)
          obtain ⟨p, hp1, hplt, _⟩ := hmap j _ hj2
          have hp0 : p = 0 := by omega
          subst hp0
          exact (htuple 0 r (by omega) ⟨j, hj1, hp1⟩).symm
      · rw [if_neg hcnt] at hok2
        injection hok2 with h2
        have h3 : (List.range cnt).map
            (fun i => (bucket i inp.rows sel, getPartitionTuple inp fr i)) = parts ∧
            [SplitEffect.schemaCheck, SplitEffect.evalPartitionKey] = effs := by
          simpa [Prod.ext_iff] using h2
        obtain ⟨hparts, _⟩ := h3
        subst hparts
        constructor
        · have hmapfst : ((List.range cnt).map
              (fun i => (bucket i inp.rows sel, getPartitionTuple inp fr i))).map Prod.fst
              = (List.range cnt).map (fun i => bucket i inp.rows sel) := by
            rw [List.map_map]
            rfl
          rw [hmapfst]
          refine flatten_buckets_perm inp.rows sel cnt ?_ hbound
          rw [hsellen, List.length_map]
        · intro pr hpr r hr
          obtain ⟨i, hi, hpri⟩ := List.mem_map.mp hpr
          have hilt : i < cnt := List.mem_range.mp hi
          rw [← hpri] at hr ⊢
          simp only [rowPartition, hpk', if_true]
          obtain ⟨j, hj1, hj2⟩ := mem_bucket.mp hr
          exact (htuple i r hilt ⟨j, hj1, hj2⟩).symm

/-- Concrete input for the C3 witness: four rows, partitioned by parity of the
first column. -/
def c3Input : SplitInput :=
  ⟨false, [[0], [1], [2], [3]], true, fun r => [r.getD 0 0 % 2]⟩

/-- Witness for C3: on the parity-partitioned block the two returned
sub-blocks concatenate back to the input and carry matching tuples. -/
theorem claim_C3_witness :
    ((((([([[0], [2]], [0]), ([[1], [3]], [1])] : List (List Row × Row))).map
      Prod.fst).flatten).Perm c3Input.rows) ∧
    ∀ pr ∈ ([([[0], [2]], [0]), ([[1], [3]], [1])] : List (List Row × Row)),
      ∀ r ∈ pr.1, rowPartition c3Input r = pr.2 :=
  claim_C3 c3Input 0 [([[0], [2]], [0]), ([[1], [3]], [1])]
    [.schemaCheck, .evalPartitionKey] (by decide) (by decide) (by rfl)

/-- C10: a null block or a block with zero rows makes `splitBlockIntoParts`
return the empty sequence with no observable effects: the schema check and the
partition-key evaluation do not run, and the unpartitioned-table rule (return
the whole block with the empty tuple) does not apply. -/
theorem claim_C10 (inp : SplitInput) (maxParts : Nat)
    (h : inp.null = true ∨ inp.rows = []) :
    splitBlockIntoParts inp maxParts = .ok ([], []) ∧
    splitBlockIntoParts inp maxParts ≠ .ok ([(inp.rows, [])], [.schemaCheck]) := by
  have heq : splitBlockIntoParts inp maxParts = .ok ([], []) := by
    unfold splitBlockIntoParts
    rw [if_pos h]
  refine ⟨heq, ?_⟩
  rw [heq]
  intro hcontra
  injection hcontra with h2
  simp [Prod.ext_iff] at h2

/-- Concrete input for the C10 witness: a non-null block with zero rows on an
unpartitioned table. -/
def c10Input : SplitInput := ⟨false, [], false, fun _ => []⟩

/-- Witness for C10: the zero-row block yields the empty result and not the
unpartitioned-table rule's result. -/
theorem claim_C10_witness :
    splitBlockIntoParts c10Input 5 = .ok ([], []) ∧
    splitBlockIntoParts c10Input 5 ≠ .ok ([(c10Input.rows, [])], [.schemaCheck]) :=
  claim_C10 c10Input 5 (by decide)

/-- Merging mode of the table (`MergeTreeData::MergingParams::Mode`); the
claims under verification only dispatch on the tag. -/
inductive MergingMode where
  | Ordinary
  | Replacing
  | Collapsing
  | Summing
  | Aggregating
  | VersionedCollapsing
  | Graphite
deriving DecidableEq, Repr

/-- Status returned by one `merge()` step of a merging algorithm
(`IMergingAlgorithm::Status`): the input it requires more data from (source
convention: `-1` when none), whether the merge is finished, and the produced
chunk. -/
structure MergeStatus where
  requiredSource : Int
  isFinished : Bool
  chunk : List Row
deriving DecidableEq, Repr

/-- Embedding of `MergeTreeDataWriter::mergeBlock` (source lines 210-280)
with the merging algorithm abstracted as its stream of step statuses
(`steps n` is the status of the `(n+1)`-th `merge()` invocation).  Ordinary
mode has nothing to merge and returns the block and permutation unchanged;
otherwise the first step must require source `0`, the second must finish, any
other outcome is a `LOGICAL_ERROR`; on success the second status's chunk is
returned and the permutation pointer is cleared. -/
def mergeBlockSteps (mode : MergingMode) (rows : List Row)
    (perm : Option (List Nat)) (steps : Nat → MergeStatus) :
    Except WErr (List Row × Option (List Nat)) :=
  match mode with
  | .Ordinary => .ok (rows, perm)
  | _ =>
    if (steps 0).requiredSource ≠ 0 then .error .logicalError
    else if (steps 1).isFinished = false then .error .logicalError
    else .ok ((steps 1).chunk, none)

/-- Observable result of `mergeBlock` on a conforming two-step run, used by
the `writeTempPart` pipeline: Ordinary leaves block and permutation alone
(the algorithm dispatch returns null, source lines 223-225, 250-252);
any other mode replaces the block by the reduction `reduce mode rows` of the
single-input run and clears the permutation (source lines 276-279). -/
def mergeBlockResult (reduce : MergingMode → List Row → List Row)
    (mode : MergingMode) (rows : List Row) (perm : Option (List Nat)) :
    List Row × Option (List Nat) :=
  if mode = .Ordinary then (rows, perm) else (reduce mode rows, none)

/-- C5: for every non-Ordinary merging mode, `mergeBlock` consults exactly the
first two step statuses of the single-input run; it throws `LOGICAL_ERROR`
when the first step does not request more data from input 0 and when the
second step is not finished; when both conform it returns the merged chunk and
clears the caller's permutation pointer. -/
theorem claim_C5 (mode : MergingMode) (rows : List Row)
    (perm : Option (List Nat)) (steps : Nat → MergeStatus)
    (hmode : mode ≠ .Ordinary) :
    ((steps 0).requiredSource ≠ 0 →
      mergeBlockSteps mode rows perm steps = .error .logicalError) ∧
    ((steps 0).requiredSource = 0 → (steps 1).isFinished = false →
      mergeBlockSteps mode rows perm steps = .error .logicalError) ∧
    ((steps 0).requiredSource = 0 → (steps 1).isFinished = true →
      mergeBlockSteps mode rows perm steps = .ok ((steps 1).chunk, none)) ∧
    (∀ steps' : Nat → MergeStatus, steps 0 = steps' 0 → steps 1 = steps' 1 →
      mergeBlockSteps mode rows perm steps = mergeBlockSteps mode rows perm steps') := by
  have hshape : mergeBlockSteps mode rows perm steps =
      (if (steps 0).requiredSource ≠ 0 then .error .logicalError
       else if (steps 1).isFinished = false then .error .logicalError
       else .ok ((steps 1).chunk, none)) := by
    cases mode <;> first | (exact absurd rfl hmode) | rfl
  refine ⟨?_, ?_, ?_, ?_⟩
  · intro h
    rw [hshape, if_pos h]
  · intro h0 h1
    rw [hshape, if_neg (by simp [h0]), if_pos h1]
  · intro h0 h1
    rw [hshape, if_neg (by simp [h0]), if_neg (by simp [h1])]
  · intro steps' h0 h1
    have hshape' : mergeBlockSteps mode rows perm steps' =
        (if (steps' 0).requiredSource ≠ 0 then .error .logicalError
         else if (steps' 1).isFinished = false then .error .logicalError
         else .ok ((steps' 1).chunk, none)) := by
      cases mode <;> first | (exact absurd rfl hmode) | rfl
    rw [hshape, hshape', h0, h1]

/-- Witness for C5 at a concrete conforming and a concrete non-conforming
run under Replacing mode. -/
theorem claim_C5_witness :
    mergeBlockSteps .Replacing [[1, 2]] none
      (fun n => if n = 0 then ⟨0, false, []⟩ else ⟨-1, true, [[7]]⟩)
      = .ok ([[7]], none) ∧
    mergeBlockSteps .Replacing [[1, 2]] none
      (fun _ => ⟨-1, true, []⟩) = .error .logicalError := by
  constructor
  · exact (claim_C5 .Replacing [[1, 2]] none _ (by decide)).2.2.1 (by decide) (by decide)
  · exact (claim_C5 .Replacing [[1, 2]] none _ (by decide)).1 (by decide)

/-- Result column of a TTL expression evaluated on a block
(`ITTLAlgorithm::executeExpressionAndGetColumn`): a Date column of day
numbers (`ColumnUInt16`), a DateTime column of unix seconds (`ColumnUInt32`),
a constant of either, or anything else (which is a logical error). -/
inductive TTLColumn where
  | date (vals : List Nat)
  | dateTime (vals : List Nat)
  | constDate (v : Nat)
  | constDateTime (v : Nat)
  | other
deriving DecidableEq, Repr

/-- One TTL description: its result column name and its expression, modelled
as the evaluation producing the result column from a block. -/
structure TTLEntry where
  resultColumn : String
  eval : List Row → TTLColumn

/-- Min/max summary of one TTL expression (`MergeTreeDataPartTTLInfo`).
Modelled from the spec (§4.4): empty summaries start absent and fold as
running minimum and maximum; the struct itself lives outside the covered
source file. -/
structure TTLInfo where
  min : Option Nat
  max : Option Nat
deriving DecidableEq, Repr

/-- Fold one timestamp into a TTL summary
(`MergeTreeDataPartTTLInfo::update`).  Modelled from the spec (§4.4):
`ttl_info.min = min(ttl_info.min, v)`, `ttl_info.max = max(ttl_info.max, v)`. -/
def TTLInfo.update (i : TTLInfo) (t : Nat) : TTLInfo :=
  ⟨some (match i.min with | none => t | some m => Nat.min m t),
   some (match i.max with | none => t | some m => Nat.max m t)⟩

/-- Check that a timestamp lies inside a TTL summary's closed interval. -/
def TTLInfo.boundsB (i : TTLInfo) (t : Nat) : Bool :=
  match i.min, i.max with
  | some mn, some mx => mn ≤ t && t ≤ mx
  | _, _ => false

/-- Running minimum of two optional timestamps (absent means no value yet). -/
def combineMin : Option Nat → Option Nat → Option Nat
  | none, b => b
  | some x, none => some x
  | some x, some y => some (Nat.min x y)

/-- Running maximum of two optional timestamps. -/
def combineMax : Option Nat → Option Nat → Option Nat
  | none, b => b
  | some x, none => some x
  | some x, some y => some (Nat.max x y)

/-- Timestamps a TTL result column contributes to its summary, already
converted from day numbers to unix seconds through the calendar table
(`fromDayNum`). -/
def contributedTimes (fromDayNum : Nat → Nat) : TTLColumn → List Nat
  | .date vals => vals.map fromDayNum
  | .dateTime vals => vals
  | .constDate v => [fromDayNum v]
  | .constDateTime v => [v]
  | .other => []

/-- Type dispatch of `updateTTL` (source lines 107-135): a Date column folds
each day number converted through the calendar table, a DateTime column folds
unix seconds directly, constants fold their single value, and any other column
type throws `LOGICAL_ERROR`. -/
def updateTTLInfo (fromDayNum : Nat → Nat) (col : TTLColumn) (info : TTLInfo) :
    Except WErr TTLInfo :=
  match col with
  | .date vals => .ok (vals.foldl (fun i v => i.update (fromDayNum v)) info)
  | .dateTime vals => .ok (vals.foldl (fun i v => i.update v) info)
  | .constDate v => .ok (info.update (fromDayNum v))
  | .constDateTime v => .ok (info.update v)
  | .other => .error .logicalError

/-- Embedding of the free function `updateTTL` (source lines 100-139): fold
the evaluated TTL column into the entry's summary and, when
`update_part_min_max_ttls` is set, fold the summary into the part-wide
rows-TTL min/max (`updatePartMinMaxTTL`). -/
def updateTTL (fromDayNum : Nat → Nat) (entry : TTLEntry) (block : List Row)
    (info : TTLInfo) (partMin partMax : Option Nat) (flag : Bool) :
    Except WErr (TTLInfo × Option Nat × Option Nat) :=
  match updateTTLInfo fromDayNum (entry.eval block) info with
  | .error e => .error e
  | .ok info' =>
    if flag then .ok (info', combineMin partMin info'.min, combineMax partMax info'.max)
    else .ok (info', partMin, partMax)

/-- Lookup in a per-result-column summary map; a missing key denotes the
default-constructed empty summary (`std::map::operator[]`). -/
def getInfo (m : List (String × TTLInfo)) (k : String) : TTLInfo :=
  match m with
  | [] => ⟨none, none⟩
  | (k', v) :: rest => if k' = k then v else getInfo rest k

/-- Update-or-insert in a per-result-column summary map. -/
def updAssoc (m : List (String × TTLInfo)) (k : String) (v : TTLInfo) :
    List (String × TTLInfo) :=
  match m with
  | [] => [(k, v)]
  | (k', v') :: rest => if k' = k then (k, v) :: rest else (k', v') :: updAssoc rest k v

/-- Process the entries of one TTL category in order, threading the category
map and the part-wide rows-TTL min/max (the per-category loops of
`writeTempPart`, source lines 367-370 and 431-442). -/
def foldTTLCategory (fromDayNum : Nat → Nat) (block : List Row) (flag : Bool) :
    List TTLEntry → List (String × TTLInfo) → Option Nat → Option Nat →
    Except WErr (List (String × TTLInfo) × Option Nat × Option Nat)
  | [], m, partMin, partMax => .ok (m, partMin, partMax)
  | e :: rest, m, partMin, partMax =>
    match updateTTL fromDayNum e block (getInfo m e.resultColumn) partMin partMax flag with
    | .error er => .error er
    | .ok (info', pm', px') =>
      foldTTLCategory fromDayNum block flag rest (updAssoc m e.resultColumn info') pm' px'

/-- TTL schema of the table, one field per category, in the order the writer
processes them. -/
structure TTLInputs where
  rowsTTL : Option TTLEntry
  groupByTTLs : List TTLEntry
  rowsWhereTTLs : List TTLEntry
  columnTTLs : List TTLEntry
  recompressionTTLs : List TTLEntry
  moveTTLs : List TTLEntry

/-- Per-part TTL summaries (`IMergeTreeDataPart::TTLInfos`): one summary per
category entry plus the part-wide rows-TTL min/max. -/
structure PartTTLInfos where
  tableTTL : TTLInfo
  groupByTTL : List (String × TTLInfo)
  rowsWhereTTL : List (String × TTLInfo)
  columnsTTL : List (String × TTLInfo)
  recompressionTTL : List (String × TTLInfo)
  movesTTL : List (String × TTLInfo)
  partMinTTL : Option Nat
  partMaxTTL : Option Nat
deriving DecidableEq, Repr

/-- Recompression stage of the TTL phase (source lines 440-442, flag off) and
the final assembly of the part's TTL infos, with the move summaries merged
last (source line 444), which touches only the moves map. -/
def processTTLsRecompression (fromDayNum : Nat → Nat) (ttls : TTLInputs)
    (block : List Row) (movesMap : List (String × TTLInfo)) (tableInfo : TTLInfo)
    (gbMap rwMap colMap : List (String × TTLInfo)) (pm4 px4 : Option Nat) :
    Except WErr PartTTLInfos :=
  match foldTTLCategory fromDayNum block false ttls.recompressionTTLs [] pm4 px4 with
  | .error e => .error e
  | .ok (rcMap, pm5, px5) =>
    .ok ⟨tableInfo, gbMap, rwMap, colMap, rcMap, movesMap, pm5, px5⟩

/-- Column-TTL stage of the TTL phase (source lines 437-438, flag on). -/
def processTTLsColumns (fromDayNum : Nat → Nat) (ttls : TTLInputs)
    (block : List Row) (movesMap : List (String × TTLInfo)) (tableInfo : TTLInfo)
    (gbMap rwMap : List (String × TTLInfo)) (pm3 px3 : Option Nat) :
    Except WErr PartTTLInfos :=
  match foldTTLCategory fromDayNum block true ttls.columnTTLs [] pm3 px3 with
  | .error e => .error e
  | .ok (colMap, pm4, px4) =>
    processTTLsRecompression fromDayNum ttls block movesMap tableInfo gbMap rwMap
      colMap pm4 px4

/-- Rows-where stage of the TTL phase (source lines 434-435, flag on). -/
def processTTLsRowsWhere (fromDayNum : Nat → Nat) (ttls : TTLInputs)
    (block : List Row) (movesMap : List (String × TTLInfo)) (tableInfo : TTLInfo)
    (gbMap : List (String × TTLInfo)) (pm2 px2 : Option Nat) :
    Except WErr PartTTLInfos :=
  match foldTTLCategory fromDayNum block true ttls.rowsWhereTTLs [] pm2 px2 with
  | .error e => .error e
  | .ok (rwMap, pm3, px3) =>
    processTTLsColumns fromDayNum ttls block movesMap tableInfo gbMap rwMap pm3 px3

/-- Group-by stage of the TTL phase (source lines 431-432, flag on). -/
def processTTLsGroupBy (fromDayNum : Nat → Nat) (ttls : TTLInputs)
    (block : List Row) (movesMap : List (String × TTLInfo)) (tableInfo : TTLInfo)
    (pm1 px1 : Option Nat) : Except WErr PartTTLInfos :=
  match foldTTLCategory fromDayNum block true ttls.groupByTTLs [] pm1 px1 with
  | .error e => .error e
  | .ok (gbMap, pm2, px2) =>
    processTTLsRowsWhere fromDayNum ttls block movesMap tableInfo gbMap pm2 px2

/-- Rows-TTL stage of the TTL phase (source lines 428-429, flag on; absent
when the table declares no rows TTL). -/
def processTTLsRows (fromDayNum : Nat → Nat) (ttls : TTLInputs)
    (block : List Row) (movesMap : List (String × TTLInfo)) :
    Except WErr PartTTLInfos :=
  match (match ttls.rowsTTL with
        | none => (.ok (⟨none, none⟩, none, none) :
            Except WErr (TTLInfo × Option Nat × Option Nat))
        | some e => updateTTL fromDayNum e block ⟨none, none⟩ none none true) with
  | .error e => .error e
  | .ok (tableInfo, pm1, px1) =>
    processTTLsGroupBy fromDayNum ttls block movesMap tableInfo pm1 px1

/-- TTL phase of `writeTempPart` in source order: move TTLs into a separate
summary first with the part-wide flag off (lines 367-370), then rows TTL,
group-by, rows-where and column TTLs with the flag on, recompression TTLs
with the flag off (lines 428-442), and finally the move summaries merged into
the part's infos (line 444). -/
def processTTLs (fromDayNum : Nat → Nat) (ttls : TTLInputs) (block : List Row) :
    Except WErr PartTTLInfos :=
  match foldTTLCategory fromDayNum block false ttls.moveTTLs [] none none with
  | .error e => .error e
  | .ok (movesMap, _, _) => processTTLsRows fromDayNum ttls block movesMap

/-- Check that an optional part-wide minimum is present and below a value. -/
def optLeB : Option Nat → Nat → Bool
  | none, _ => false
  | some m, t => m ≤ t

/-- Check that an optional part-wide maximum is present and above a value. -/
def optGeB : Option Nat → Nat → Bool
  | none, _ => false
  | some m, t => t ≤ m

theorem ttlInfo_update_bounds (i : TTLInfo) (t : Nat) :
    (i.update t).boundsB t = true := by
  unfold TTLInfo.update TTLInfo.boundsB
  cases i.min <;> cases i.max <;> simp <;> omega

theorem ttlInfo_update_mono (i : TTLInfo) (t u : Nat)
    (h : i.boundsB t = true) : (i.update u).boundsB t = true := by
  unfold TTLInfo.boundsB at h
  cases hm : i.min with
  | none => rw [hm] at h; simp at h
  | some mn =>
    cases hx : i.max with
    | none => rw [hm, hx] at h; simp at h
    | some mx =>
      rw [hm, hx] at h
      simp at h
      unfold TTLInfo.update TTLInfo.boundsB
      rw [hm, hx]
      simp
      omega

theorem ttlInfo_foldl_bounds (ts : List Nat) (i : TTLInfo) :
    (∀ t ∈ ts, (ts.foldl TTLInfo.update i).boundsB t = true) ∧
    (∀ t, i.boundsB t = true → (ts.foldl TTLInfo.update i).boundsB t = true) := by
  induction ts generalizing i with
  | nil => exact ⟨by simp, fun t h => by simpa using h⟩
  | cons v rest ih =>
    refine ⟨?_, ?_⟩
    · intro t ht
      rcases List.mem_cons.mp ht with rfl | ht'
      · exact (ih (i.update t)).2 t (ttlInfo_update_bounds i t)
      · exact (ih (i.update v)).1 t ht'
    · intro t ht
      exact (ih (i.update v)).2 t (ttlInfo_update_mono i t v ht)

theorem updateTTLInfo_ok (fromDayNum : Nat → Nat) (col : TTLColumn)
    (info info' : TTLInfo) (h : updateTTLInfo fromDayNum col info = .ok info') :
    (∀ t ∈ contributedTimes fromDayNum col, info'.boundsB t = true) ∧
    (∀ t, info.boundsB t = true → info'.boundsB t = true) := by
  cases col with
  | date vals =>
    simp only [updateTTLInfo] at h
    injection h with h2
    subst h2
    have hfold : vals.foldl (fun i v => i.update (fromDayNum v)) info
        = (vals.map fromDayNum).foldl TTLInfo.update info := by
      rw [List.foldl_map]
    rw [hfold]
    have := ttlInfo_foldl_bounds (vals.map fromDayNum) info
    exact ⟨fun t ht => this.1 t (by simpa [contributedTimes] using ht), this.2⟩
  | dateTime vals =>
    simp only [updateTTLInfo] at h
    injection h with h2
    subst h2
    have hfold : vals.foldl (fun i v => i.update v) info
        = vals.foldl TTLInfo.update info := rfl
    rw [hfold]
    have := ttlInfo_foldl_bounds vals info
    exact ⟨fun t ht => this.1 t (by simpa [contributedTimes] using ht), this.2⟩
  | constDate v =>
    simp only [updateTTLInfo] at h
    injection h with h2
    subst h2
    refine ⟨?_, fun t ht => ttlInfo_update_mono info t _ ht⟩
    intro t ht
    simp [contributedTimes] at ht
    subst ht
    exact ttlInfo_update_bounds info _
  | constDateTime v =>
    simp only [updateTTLInfo] at h
    injection h with h2
    subst h2
    refine ⟨?_, fun t ht => ttlInfo_update_mono info t _ ht⟩
    intro t ht
    simp [contributedTimes] at ht
    subst ht
    exact ttlInfo_update_bounds info _
  | other => exact Except.noConfusion h

theorem combineMin_le (pm : Option Nat) (mn t : Nat) (h : mn ≤ t) :
    optLeB (combineMin pm (some mn)) t = true := by
  cases pm <;> simp [combineMin, optLeB] <;> omega

theorem combineMax_ge (px : Option Nat) (mx t : Nat) (h : t ≤ mx) :
    optGeB (combineMax px (some mx)) t = true := by
  cases px <;> simp [combineMax, optGeB] <;> omega

theorem combineMin_mono (pm x : Option Nat) (t : Nat) (h : optLeB pm t = true) :
    optLeB (combineMin pm x) t = true := by
  cases pm with
  | none => simp [optLeB] at h
  | some m =>
    cases x <;> simp [combineMin, optLeB] at h ⊢ <;> omega

theorem combineMax_mono (px x : Option Nat) (t : Nat) (h : optGeB px t = true) :
    optGeB (combineMax px x) t = true := by
  cases px with
  | none => simp [optGeB] at h
  | some m =>
    cases x <;> simp [combineMax, optGeB] at h ⊢ <;> omega

theorem boundsB_min_max (i : TTLInfo) (t : Nat) (h : i.boundsB t = true) :
    ∃ mn mx, i.min = some mn ∧ i.max = some mx ∧ mn ≤ t ∧ t ≤ mx := by
  unfold TTLInfo.boundsB at h
  cases hm : i.min with
  | none => rw [hm] at h; simp at h
  | some mn =>
    cases hx : i.max with
    | none => rw [hm, hx] at h; simp at h
    | some mx =>
      rw [hm, hx] at h
      simp at h
      exact ⟨mn, mx, rfl, rfl, h.1, h.2⟩

theorem updateTTL_ok (fromDayNum : Nat → Nat) (entry : TTLEntry) (block : List Row)
    (info : TTLInfo) (partMin partMax : Option Nat) (flag : Bool)
    (info' : TTLInfo) (pm' px' : Option Nat)
    (h : updateTTL fromDayNum entry block info partMin partMax flag
      = .ok (info', pm', px')) :
    (∀ t ∈ contributedTimes fromDayNum (entry.eval block), info'.boundsB t = true) ∧
    (∀ t, info.boundsB t = true → info'.boundsB t = true) ∧
    (∀ t, optLeB partMin t = true → optLeB pm' t = true) ∧
    (∀ t, optGeB partMax t = true → optGeB px' t = true) ∧
    (flag = true → ∀ t ∈ contributedTimes fromDayNum (entry.eval block),
      optLeB pm' t = true ∧ optGeB px' t = true) ∧
    (flag = false → pm' = partMin ∧ px' = partMax) := by
  unfold updateTTL at h
  cases hupd : updateTTLInfo fromDayNum (entry.eval block) info with
  | error e =>
    rw [hupd] at h
    exact Except.noConfusion h
  | ok i2 =>
    rw [hupd] at h
    obtain ⟨hb, hmono⟩ := updateTTLInfo_ok fromDayNum _ info i2 hupd
    cases flag with
    | true =>
      have h' : (.ok (i2, combineMin partMin i2.min, combineMax partMax i2.max) :
          Except WErr (TTLInfo × Option Nat × Option Nat)) = .ok (info', pm', px') := h
      injection h' with h2
      have h3 : i2 = info' ∧ combineMin partMin i2.min = pm' ∧
          combineMax partMax i2.max = px' := by
        simpa [Prod.ext_iff] using h2
      obtain ⟨heq, hpm, hpx⟩ := h3
      subst hpm; subst hpx; subst heq
      refine ⟨hb, hmono, ?_, ?_, ?_, by intro hc; exact Bool.noConfusion hc⟩
      · exact fun t ht => combineMin_mono _ _ t ht
      · exact fun t ht => combineMax_mono _ _ t ht
      · intro _ t ht
        obtain ⟨mn, mx, hmn, hmx, h1, h2⟩ := boundsB_min_max _ t (hb t ht)
        rw [hmn, hmx]
        exact ⟨combineMin_le partMin mn t h1, combineMax_ge partMax mx t h2⟩
    | false =>
      have h' : (.ok (i2, partMin, partMax) :
          Except WErr (TTLInfo × Option Nat × Option Nat)) = .ok (info', pm', px') := h
      injection h' with h2
      have h3 : i2 = info' ∧ partMin = pm' ∧ partMax = px' := by
        simpa [Prod.ext_iff] using h2
      obtain ⟨heq, hpm, hpx⟩ := h3
      subst hpm; subst hpx; subst heq
      exact ⟨hb, hmono, fun t ht => ht, fun t ht => ht,
        by intro hc; exact Bool.noConfusion hc, fun _ => ⟨rfl, rfl⟩⟩

theorem getInfo_updAssoc (m : List (String × TTLInfo)) (k : String) (v : TTLInfo)
    (k' : String) :
    getInfo (updAssoc m k v) k' = if k = k' then v else getInfo m k' := by
  induction m with
  | nil => by_cases h : k = k' <;> simp [updAssoc, getInfo, h]
  | cons p rest ih =>
    obtain ⟨k0, v0⟩ := p
    by_cases h0 : k0 = k
    · subst h0
      by_cases h1 : k0 = k'
      · subst h1
        simp [updAssoc, getInfo]
      · simp [updAssoc, getInfo, h1]
    · by_cases h1 : k0 = k'
      · subst h1
        have hk : ¬ k = k0 := fun h => h0 h.symm
        simp [updAssoc, getInfo, h0, hk]
      · simp [updAssoc, getInfo, h0, h1, ih]

theorem foldTTLCategory_ok (fdn : Nat → Nat) (block : List Row) (flag : Bool) :
    ∀ (entries : List TTLEntry) (m : List (String × TTLInfo)) (pm px : Option Nat)
      (m' : List (String × TTLInfo)) (pm' px' : Option Nat),
      foldTTLCategory fdn block flag entries m pm px = .ok (m', pm', px') →
      (∀ (k : String) (t : Nat), (getInfo m k).boundsB t = true →
        (getInfo m' k).boundsB t = true) ∧
      (∀ e ∈ entries, ∀ t ∈ contributedTimes fdn (e.eval block),
        (getInfo m' e.resultColumn).boundsB t = true) ∧
      (∀ t, optLeB pm t = true → optLeB pm' t = true) ∧
      (∀ t, optGeB px t = true → optGeB px' t = true) ∧
      (flag = true → ∀ e ∈ entries, ∀ t ∈ contributedTimes fdn (e.eval block),
        optLeB pm' t = true ∧ optGeB px' t = true) ∧
      (flag = false → pm' = pm ∧ px' = px) := by
  intro entries
  induction entries with
  | nil =>
    intro m pm px m' pm' px' h
    have h' : (.ok (m, pm, px) :
        Except WErr (List (String × TTLInfo) × Option Nat × Option Nat))
        = .ok (m', pm', px') := h
    injection h' with h2
    have h3 : m = m' ∧ pm = pm' ∧ px = px' := by
      simpa [Prod.ext_iff] using h2
    obtain ⟨rfl, rfl, rfl⟩ := h3
    exact ⟨fun _ _ ht => ht, by simp, fun _ ht => ht, fun _ ht => ht,
      by simp, fun _ => ⟨rfl, rfl⟩⟩
  | cons e rest ih =>
    intro m pm px m' pm' px' h
    simp only [foldTTLCategory] at h
    cases hupd : updateTTL fdn e block (getInfo m e.resultColumn) pm px flag with
    | error er =>
      rw [hupd] at h
      exact Except.noConfusion h
    | ok res =>
      obtain ⟨info1, pm1, px1⟩ := res
      rw [hupd] at h
      have h2 : foldTTLCategory fdn block flag rest
          (updAssoc m e.resultColumn info1) pm1 px1 = .ok (m', pm', px') := h
      obtain ⟨hbound, hinfomono, hpmmono, hpxmono, hflag, hnoflag⟩ :=
        updateTTL_ok fdn e block (getInfo m e.resultColumn) pm px flag info1 pm1 px1 hupd
      obtain ⟨ihmono, ihentries, ihpm, ihpx, ihflag, ihnoflag⟩ :=
        ih (updAssoc m e.resultColumn info1) pm1 px1 m' pm' px' h2
    /- The head entry's summary in the updated map is `info1`, and every later
       update only refines summaries monotonically. -/
      have hstepmap : ∀ (k : String) (t : Nat), (getInfo m k).boundsB t = true →
          (getInfo (updAssoc m e.resultColumn info1) k).boundsB t = true := by
        intro k t ht
        rw [getInfo_updAssoc]
        by_cases hk : e.resultColumn = k
        · rw [if_pos hk]
          rw [hk] at hinfomono
          exact hinfomono t ht
        · rw [if_neg hk]
          exact ht
      refine ⟨?_, ?_, ?_, ?_, ?_, ?_⟩
      · exact fun k t ht => ihmono k t (hstepmap k t ht)
      · intro e' he' t ht
        rcases List.mem_cons.mp he' with rfl | he''
        · refine ihmono e'.resultColumn t ?_
          rw [getInfo_updAssoc, if_pos rfl]
          exact hbound t ht
        · exact ihentries e' he'' t ht
      · exact fun t ht => ihpm t (hpmmono t ht)
      · exact fun t ht => ihpx t (hpxmono t ht)
      · intro hfl e' he' t ht
        rcases List.mem_cons.mp he' with rfl | he''
        · obtain ⟨h1, h2'⟩ := hflag hfl t ht
          exact ⟨ihpm t h1, ihpx t h2'⟩
        · exact ihflag hfl e' he'' t ht
      · intro hfl
        obtain ⟨hp1, hp2⟩ := hnoflag hfl
        obtain ⟨hq1, hq2⟩ := ihnoflag hfl
        exact ⟨by rw [hq1, hp1], by rw [hq2, hp2]⟩


theorem processTTLs_inv (fdn : Nat → Nat) (ttls : TTLInputs) (block : List Row)
    (r : PartTTLInfos) (hok : processTTLs fdn ttls block = .ok r) :
    ∃ (movesMap : List (String × TTLInfo)) (pmM pxM : Option Nat)
      (tableInfo : TTLInfo) (pm1 px1 : Option Nat)
      (gbMap : List (String × TTLInfo)) (pm2 px2 : Option Nat)
      (rwMap : List (String × TTLInfo)) (pm3 px3 : Option Nat)
      (colMap : List (String × TTLInfo)) (pm4 px4 : Option Nat)
      (rcMap : List (String × TTLInfo)) (pm5 px5 : Option Nat),
      foldTTLCategory fdn block false ttls.moveTTLs [] none none
        = .ok (movesMap, pmM, pxM) ∧
      (match ttls.rowsTTL with
        | none => (.ok (⟨none, none⟩, none, none) :
            Except WErr (TTLInfo × Option Nat × Option Nat))
        | some e => updateTTL fdn e block ⟨none, none⟩ none none true)
        = .ok (tableInfo, pm1, px1) ∧
      foldTTLCategory fdn block true ttls.groupByTTLs [] pm1 px1
        = .ok (gbMap, pm2, px2) ∧
      foldTTLCategory fdn block true ttls.rowsWhereTTLs [] pm2 px2
        = .ok (rwMap, pm3, px3) ∧
      foldTTLCategory fdn block true ttls.columnTTLs [] pm3 px3
        = .ok (colMap, pm4, px4) ∧
      foldTTLCategory fdn block false ttls.recompressionTTLs [] pm4 px4
        = .ok (rcMap, pm5, px5) ∧
      r = ⟨tableInfo, gbMap, rwMap, colMap, rcMap, movesMap, pm5, px5⟩ := by
  unfold processTTLs at hok
  cases h1 : foldTTLCategory fdn block false ttls.moveTTLs [] none none with
  | error e => rw [h1] at hok; exact Except.noConfusion hok
  | ok res1 =>
    obtain ⟨movesMap, pmM, pxM⟩ := res1
    rw [h1] at hok
    have hok1 : processTTLsRows fdn ttls block movesMap = .ok r := hok
    unfold processTTLsRows at hok1
    cases h2 : (match ttls.rowsTTL with
        | none => (.ok (⟨none, none⟩, none, none) :
            Except WErr (TTLInfo × Option Nat × Option Nat))
        | some e => updateTTL fdn e block ⟨none, none⟩ none none true) with
    | error e => rw [h2] at hok1; exact Except.noConfusion hok1
    | ok res2 =>
      obtain ⟨tableInfo, pm1, px1⟩ := res2
      rw [h2] at hok1
      have hok2 : processTTLsGroupBy fdn ttls block movesMap tableInfo pm1 px1
          = .ok r := hok1
      unfold processTTLsGroupBy at hok2
      cases h3 : foldTTLCategory fdn block true ttls.groupByTTLs [] pm1 px1 with
      | error e => rw [h3] at hok2; exact Except.noConfusion hok2
      | ok res3 =>
        obtain ⟨gbMap, pm2, px2⟩ := res3
        rw [h3] at hok2
        have hok3 : processTTLsRowsWhere fdn ttls block movesMap tableInfo gbMap
            pm2 px2 = .ok r := hok2
        unfold processTTLsRowsWhere at hok3
        cases h4 : foldTTLCategory fdn block true ttls.rowsWhereTTLs [] pm2 px2 with
        | error e => rw [h4] at hok3; exact Except.noConfusion hok3
        | ok res4 =>
          obtain ⟨rwMap, pm3, px3⟩ := res4
          rw [h4] at hok3
          have hok4 : processTTLsColumns fdn ttls block movesMap tableInfo gbMap
              rwMap pm3 px3 = .ok r := hok3
          unfold processTTLsColumns at hok4
          cases h5 : foldTTLCategory fdn block true ttls.columnTTLs [] pm3 px3 with
          | error e => rw [h5] at hok4; exact Except.noConfusion hok4
          | ok res5 =>
            obtain ⟨colMap, pm4, px4⟩ := res5
            rw [h5] at hok4
            have hok5 : processTTLsRecompression fdn ttls block movesMap tableInfo
                gbMap rwMap colMap pm4 px4 = .ok r := hok4
            unfold processTTLsRecompression at hok5
            cases h6 : foldTTLCategory fdn block false ttls.recompressionTTLs []
                pm4 px4 with
            | error e => rw [h6] at hok5; exact Except.noConfusion hok5
            | ok res6 =>
              obtain ⟨rcMap, pm5, px5⟩ := res6
              rw [h6] at hok5
              have hok6 : (.ok (⟨tableInfo, gbMap, rwMap, colMap, rcMap, movesMap,
                  pm5, px5⟩ : PartTTLInfos) : Except WErr PartTTLInfos) = .ok r := hok5
              injection hok6 with hr
              exact ⟨movesMap, pmM, pxM, tableInfo, pm1, px1, gbMap, pm2, px2,
                rwMap, pm3, px3, colMap, pm4, px4, rcMap, pm5, px5,
                rfl, rfl, h3, h4, h5, h6, hr.symm⟩

/-- TTL schema with the move and recompression categories removed; used to
express that those two categories do not influence the part-wide rows-TTL
min/max. -/
def stripTTLs (ttls : TTLInputs) : TTLInputs :=
  ⟨ttls.rowsTTL, ttls.groupByTTLs, ttls.rowsWhereTTLs, ttls.columnTTLs, [], []⟩

theorem processTTLs_strip (fdn : Nat → Nat) (ttls : TTLInputs) (block : List Row)
    (tableInfo : TTLInfo) (pm1 px1 : Option Nat)
    (gbMap : List (String × TTLInfo)) (pm2 px2 : Option Nat)
    (rwMap : List (String × TTLInfo)) (pm3 px3 : Option Nat)
    (colMap : List (String × TTLInfo)) (pm4 px4 : Option Nat)
    (h2 : (match ttls.rowsTTL with
        | none => (.ok (⟨none, none⟩, none, none) :
            Except WErr (TTLInfo × Option Nat × Option Nat))
        | some e => updateTTL fdn e block ⟨none, none⟩ none none true)
        = .ok (tableInfo, pm1, px1))
    (h3 : foldTTLCategory fdn block true ttls.groupByTTLs [] pm1 px1
        = .ok (gbMap, pm2, px2))
    (h4 : foldTTLCategory fdn block true ttls.rowsWhereTTLs [] pm2 px2
        = .ok (rwMap, pm3, px3))
    (h5 : foldTTLCategory fdn block true ttls.columnTTLs [] pm3 px3
        = .ok (colMap, pm4, px4)) :
    processTTLs fdn (stripTTLs ttls) block
      = .ok ⟨tableInfo, gbMap, rwMap, colMap, [], [], pm4, px4⟩ := by
  show ((match (match ttls.rowsTTL with
      | none => (.ok (⟨none, none⟩, none, none) :
          Except WErr (TTLInfo × Option Nat × Option Nat))
      | some e => updateTTL fdn e block ⟨none, none⟩ none none true) with
    | .error e => .error e
    | .ok (ti, p, x) => processTTLsGroupBy fdn (stripTTLs ttls) block [] ti p x) :
      Except WErr PartTTLInfos) = _
  rw [h2]
  show ((match foldTTLCategory fdn block true ttls.groupByTTLs [] pm1 px1 with
    | .error e => .error e
    | .ok (g, p, x) =>
        processTTLsRowsWhere fdn (stripTTLs ttls) block [] tableInfo g p x) :
      Except WErr PartTTLInfos) = _
  rw [h3]
  show ((match foldTTLCategory fdn block true ttls.rowsWhereTTLs [] pm2 px2 with
    | .error e => .error e
    | .ok (w, p, x) =>
        processTTLsColumns fdn (stripTTLs ttls) block [] tableInfo gbMap w p x) :
      Except WErr PartTTLInfos) = _
  rw [h4]
  show ((match foldTTLCategory fdn block true ttls.columnTTLs [] pm3 px3 with
    | .error e => .error e
    | .ok (c, p, x) =>
        processTTLsRecompression fdn (stripTTLs ttls) block [] tableInfo gbMap
          rwMap c p x) :
      Except WErr PartTTLInfos) = _
  rw [h5]
  rfl

/-- C7: after the TTL phase, every timestamp contributed by a TTL entry lies
inside that entry's `[min, max]` summary (day numbers converted to unix
seconds through the calendar table); the rows, group-by, rows-where and
columns categories additionally fold their timestamps into the part-wide
rows-TTL min/max; and removing the move and recompression categories leaves
the part-wide min/max unchanged, so those two categories do not contribute to
it. -/
theorem claim_C7 (fdn : Nat → Nat) (ttls : TTLInputs) (block : List Row)
    (r : PartTTLInfos) (hok : processTTLs fdn ttls block = .ok r) :
    (∀ e : TTLEntry, ttls.rowsTTL = some e →
      ∀ t ∈ contributedTimes fdn (e.eval block), r.tableTTL.boundsB t = true) ∧
    (∀ e ∈ ttls.groupByTTLs, ∀ t ∈ contributedTimes fdn (e.eval block),
      (getInfo r.groupByTTL e.resultColumn).boundsB t = true) ∧
    (∀ e ∈ ttls.rowsWhereTTLs, ∀ t ∈ contributedTimes fdn (e.eval block),
      (getInfo r.rowsWhereTTL e.resultColumn).boundsB t = true) ∧
    (∀ e ∈ ttls.columnTTLs, ∀ t ∈ contributedTimes fdn (e.eval block),
      (getInfo r.columnsTTL e.resultColumn).boundsB t = true) ∧
    (∀ e ∈ ttls.recompressionTTLs, ∀ t ∈ contributedTimes fdn (e.eval block),
      (getInfo r.recompressionTTL e.resultColumn).boundsB t = true) ∧
    (∀ e ∈ ttls.moveTTLs, ∀ t ∈ contributedTimes fdn (e.eval block),
      (getInfo r.movesTTL e.resultColumn).boundsB t = true) ∧
    (∀ e : TTLEntry, ttls.rowsTTL = some e →
      ∀ t ∈ contributedTimes fdn (e.eval block),
        optLeB r.partMinTTL t = true ∧ optGeB r.partMaxTTL t = true) ∧
    (∀ e ∈ ttls.groupByTTLs ++ ttls.rowsWhereTTLs ++ ttls.columnTTLs,
      ∀ t ∈ contributedTimes fdn (e.eval block),
        optLeB r.partMinTTL t = true ∧ optGeB r.partMaxTTL t = true) ∧
    (∃ r' : PartTTLInfos, processTTLs fdn (stripTTLs ttls) block = .ok r' ∧
      r'.partMinTTL = r.partMinTTL ∧ r'.partMaxTTL = r.partMaxTTL) := by
  obtain ⟨mvMap, pmM, pxM, ti, pm1, px1, gbMap, pm2, px2, rwMap, pm3, px3,
    colMap, pm4, px4, rcMap, pm5, px5, h1, h2, h3, h4, h5, h6, hr⟩ :=
    processTTLs_inv fdn ttls block r hok
  subst hr
  obtain ⟨_, mvEntries, _, _, _, _⟩ :=
    foldTTLCategory_ok fdn block false ttls.moveTTLs [] none none mvMap pmM pxM h1
  obtain ⟨_, gbEntries, gbPm, gbPx, gbFlag, _⟩ :=
    foldTTLCategory_ok fdn block true ttls.groupByTTLs [] pm1 px1 gbMap pm2 px2 h3
  obtain ⟨_, rwEntries, rwPm, rwPx, rwFlag, _⟩ :=
    foldTTLCategory_ok fdn block true ttls.rowsWhereTTLs [] pm2 px2 rwMap pm3 px3 h4
  obtain ⟨_, colEntries, colPm, colPx, colFlag, _⟩ :=
    foldTTLCategory_ok fdn block true ttls.columnTTLs [] pm3 px3 colMap pm4 px4 h5
  obtain ⟨_, rcEntries, _, _, _, rcNoFlag⟩ :=
    foldTTLCategory_ok fdn block false ttls.recompressionTTLs [] pm4 px4 rcMap pm5 px5 h6
  obtain ⟨hpm54, hpx54⟩ := rcNoFlag rfl
  refine ⟨?_, gbEntries, rwEntries, colEntries, rcEntries, mvEntries, ?_, ?_, ?_⟩
  · intro e he t ht
    rw [he] at h2
    have h2' : updateTTL fdn e block ⟨none, none⟩ none none true
        = .ok (ti, pm1, px1) := h2
    exact (updateTTL_ok fdn e block ⟨none, none⟩ none none true ti pm1 px1 h2').1 t ht
  · intro e he t ht
    rw [he] at h2
    have h2' : updateTTL fdn e block ⟨none, none⟩ none none true
        = .ok (ti, pm1, px1) := h2
    obtain ⟨hl, hg⟩ :=
      (updateTTL_ok fdn e block ⟨none, none⟩ none none true ti pm1 px1 h2').2.2.2.2.1
        rfl t ht
    have hl' := colPm t (rwPm t (gbPm t hl))
    have hg' := colPx t (rwPx t (gbPx t hg))
    show optLeB pm5 t = true ∧ optGeB px5 t = true
    rw [hpm54, hpx54]
    exact ⟨hl', hg'⟩
  · intro e he t ht
    show optLeB pm5 t = true ∧ optGeB px5 t = true
    rw [hpm54, hpx54]
    rcases List.mem_append.mp he with hgw | hcol
    · rcases List.mem_append.mp hgw with hgb | hrw
      · obtain ⟨hl, hg⟩ := gbFlag rfl e hgb t ht
        exact ⟨colPm t (rwPm t hl), colPx t (rwPx t hg)⟩
      · obtain ⟨hl, hg⟩ := rwFlag rfl e hrw t ht
        exact ⟨colPm t hl, colPx t hg⟩
    · exact colFlag rfl e hcol t ht
  · refine ⟨⟨ti, gbMap, rwMap, colMap, [], [], pm4, px4⟩,
      processTTLs_strip fdn ttls block ti pm1 px1 gbMap pm2 px2 rwMap pm3 px3
        colMap pm4 px4 h2 h3 h4 h5, hpm54.symm, hpx54.symm⟩

/-- Calendar conversion used by the C7 witness: day numbers to unix seconds. -/
def c7Fdn : Nat → Nat := fun d => d * 86400

/-- Rows-TTL entry of the C7 witness: a DateTime expression reading the first
column. -/
def c7Entry : TTLEntry := ⟨"t", fun rows => .dateTime (rows.map (fun r => r.getD 0 0))⟩

/-- TTL schema of the C7 witness: one rows TTL, one group-by TTL and one move
TTL. -/
def c7Ttls : TTLInputs :=
  ⟨some c7Entry, [⟨"g", fun _ => .constDateTime 50⟩], [], [], [],
   [⟨"m", fun _ => .constDate 2⟩]⟩

/-- Block of the C7 witness. -/
def c7Block : List Row := [[10], [30]]

/-- TTL summaries the writer computes on the C7 witness input. -/
def c7Result : PartTTLInfos :=
  ⟨⟨some 10, some 30⟩, [("g", ⟨some 50, some 50⟩)], [], [], [],
   [("m", ⟨some 172800, some 172800⟩)], some 10, some 50⟩

/-- Witness for C7: on the concrete schema the rows-TTL summary bounds the
row timestamps, the move summary bounds its converted day number, and the
group-by timestamp is folded into the part-wide min/max. -/
theorem claim_C7_witness :
    processTTLs c7Fdn c7Ttls c7Block = .ok c7Result ∧
    c7Result.tableTTL.boundsB 30 = true ∧
    (getInfo c7Result.movesTTL "m").boundsB (c7Fdn 2) = true ∧
    (optLeB c7Result.partMinTTL 50 = true ∧ optGeB c7Result.partMaxTTL 50 = true) :=
  have hok : processTTLs c7Fdn c7Ttls c7Block = .ok c7Result := by rfl
  have hc := claim_C7 c7Fdn c7Ttls c7Block c7Result hok
  ⟨hok,
   hc.1 c7Entry rfl 30 (by decide),
   hc.2.2.2.2.2.1 ⟨"m", fun _ => .constDate 2⟩ (List.mem_singleton.mpr rfl)
     (c7Fdn 2) (by decide),
   hc.2.2.2.2.2.2.2.1 ⟨"g", fun _ => .constDateTime 50⟩
     (List.mem_append.mpr (.inl (List.mem_append.mpr
       (.inl (List.mem_singleton.mpr rfl))))) 50 (by decide)⟩

theorem foldl_min_le_init (vs : List Nat) (init : Nat) :
    vs.foldl Nat.min init ≤ init := by
  induction vs generalizing init with
  | nil => simp
  | cons v rest ih =>
    simp only [List.foldl_cons]
    exact le_trans (ih (Nat.min init v)) (Nat.min_le_left init v)

theorem foldl_min_le_mem (vs : List Nat) (x : Nat) :
    ∀ init : Nat, x ∈ vs → vs.foldl Nat.min init ≤ x := by
  induction vs with
  | nil => intro init hx; simp at hx
  | cons v rest ih =>
    intro init hx
    simp only [List.foldl_cons]
    rcases List.mem_cons.mp hx with rfl | hx'
    · exact le_trans (foldl_min_le_init rest (Nat.min init x)) (Nat.min_le_right init x)
    · exact ih (Nat.min init v) hx'

theorem foldl_max_ge_init (vs : List Nat) (init : Nat) :
    init ≤ vs.foldl Nat.max init := by
  induction vs generalizing init with
  | nil => simp
  | cons v rest ih =>
    simp only [List.foldl_cons]
    exact le_trans (Nat.le_max_left init v) (ih (Nat.max init v))

theorem foldl_max_ge_mem (vs : List Nat) (x : Nat) :
    ∀ init : Nat, x ∈ vs → x ≤ vs.foldl Nat.max init := by
  induction vs with
  | nil => intro init hx; simp at hx
  | cons v rest ih =>
    intro init hx
    simp only [List.foldl_cons]
    rcases List.mem_cons.mp hx with rfl | hx'
    · exact le_trans (Nat.le_max_right init x) (foldl_max_ge_init rest (Nat.max init x))
    · exact ih (Nat.max init v) hx'

/-- Per-column minimum and maximum of the block over the partition-key source
columns (`IMergeTreeDataPart::MinMaxIndex::update`, called at source line
300).  Modelled from the spec (§4.5, per-column closed `[min, max]`
intervals); the struct lives outside the covered source file.  On an empty
block the source leaves the index uninitialised; the model returns `(0, 0)`
per column, a case the writer never consults. -/
def minMaxOf (rows : List Row) (cols : List Nat) : List (Nat × Nat) :=
  cols.map (fun c =>
    let vs := rows.map (fun r => r.getD c 0)
    (vs.foldl Nat.min (vs.headD 0), vs.foldl Nat.max 0))

theorem minMaxOf_bounds (rows : List Row) (cols : List Nat) (r : Row)
    (hr : r ∈ rows) (i : Nat) (hi : i < cols.length) :
    ((minMaxOf rows cols).getD i (0, 0)).1 ≤ r.getD (cols.getD i 0) 0 ∧
    r.getD (cols.getD i 0) 0 ≤ ((minMaxOf rows cols).getD i (0, 0)).2 := by
  have hget : (minMaxOf rows cols).getD i (0, 0) =
      (let vs := rows.map (fun x => x.getD (cols.getD i 0) 0)
       (vs.foldl Nat.min (vs.headD 0), vs.foldl Nat.max 0)) := by
    unfold minMaxOf
    rw [List.getD_eq_getElem?_getD, List.getElem?_map]
    rw [List.getElem?_eq_getElem hi]
    simp only [Option.map_some', Option.getD_some]
    rw [List.getD_eq_getElem?_getD, List.getElem?_eq_getElem hi]
    simp only [Option.getD_some]
  rw [hget]
  have hmem : r.getD (cols.getD i 0) 0 ∈ rows.map (fun x => x.getD (cols.getD i 0) 0) :=
    List.mem_map.mpr ⟨r, hr, rfl⟩
  exact ⟨foldl_min_le_mem _ _ _ hmem, foldl_max_ge_mem _ _ _ hmem⟩

/-- Block-number range and level of a part (`MergeTreePartInfo`): the writer
always uses `(temp_index, temp_index, 0)` (source line 304). -/
structure PartInfo where
  minBlock : Nat
  maxBlock : Nat
  level : Nat
deriving DecidableEq, Repr

/-- Deterministic part-name encodings (source lines 306-322): the v0 encoding
from the minmax date column's minimum and maximum day numbers
(`getPartNameV0`), used when the format version predates custom partitioning,
and the v1 encoding from the partition identifier (`getPartName`). -/
inductive PartName where
  | v0 (minDate maxDate lo hi level : Nat)
  | v1 (partitionId : Row) (lo hi level : Nat)
deriving DecidableEq, Repr

/-- Part naming of `writeTempPart` (source lines 304-322): under the old
format version, read the minmax date column's interval, fail with
`LOGICAL_ERROR` when its endpoints fall in different months of the calendar
table, and encode v0; otherwise encode v1.  The `(0, 0)` default stands for
the source's precondition that the date column position is valid. -/
def computePartName (formatVersionOld : Bool) (monthOf : Nat → Nat)
    (minmax : List (Nat × Nat)) (datePos : Nat) (partitionId : Row)
    (tempIndex : Nat) : Except WErr PartName :=
  if formatVersionOld then
    let mn := (minmax.getD datePos (0, 0)).1
    let mx := (minmax.getD datePos (0, 0)).2
    if monthOf mn ≠ monthOf mx then .error .logicalError
    else .ok (.v0 mn mx tempIndex tempIndex 0)
  else .ok (.v1 partitionId tempIndex tempIndex 0)

/-- Projection type (`ProjectionDescription::Type`). -/
inductive ProjType where
  | Normal
  | Aggregate
deriving DecidableEq, Repr

/-- A projection declared on the table: name, type, the `calculate` query
evaluation, and the projection's own sorting-key column positions. -/
structure Projection where
  name : String
  ptype : ProjType
  calcBlock : List Row → List Row
  sortCols : List Nat

/-- A written projection sub-part: its name, the rows it wrote, its hard-coded
part info (`all_0_0_0`, source line 510) and its temp flag. -/
structure ProjPart where
  name : String
  rows : List Row
  info : PartInfo
  isTemp : Bool
deriving DecidableEq, Repr

/-- Embedding of `writeProjectionPartImpl` (source lines 496-601) for the
claims about projection content: run the projection's sort phase, force
`MergingMode = Aggregating` through `mergeBlock` when the projection type is
Aggregate (source lines 569-574, with its own merging params), and write the
block with the remaining permutation. -/
def writeProjectionPartImpl (reduce : MergingMode → List Row → List Row)
    (p : Projection) (block : List Row) : ProjPart :=
  let sp := sortPhase block p.sortCols
  let rp :=
    if p.ptype = .Aggregate then mergeBlockResult reduce .Aggregating block sp.1
    else (block, sp.1)
  ⟨p.name, applyPerm rp.2 rp.1, ⟨0, 0, 0⟩, false⟩

/-- Part descriptor of the written main part (`new_data_part`, source lines
386-405 and 457-468): name, part info, partition tuple, minmax index, row
count, TTL infos, temp flag and the recorded projection sub-parts. -/
structure PartDescriptor where
  name : PartName
  info : PartInfo
  partition : Row
  minmax : List (Nat × Nat)
  rowsCount : Nat
  ttl : PartTTLInfos
  isTemp : Bool
  projParts : List ProjPart
deriving DecidableEq, Repr

/-- The value `writeTempPart` returns (`MergeTreeDataWriter::TemporaryPart`):
an optional part descriptor, whether a storage builder was attached, the
stream tags (projection streams then the main stream), and whether the
temporary-directory lock is held. -/
structure TemporaryPart where
  part : Option PartDescriptor
  builder : Bool
  streams : List String
  dirLock : Bool
deriving DecidableEq, Repr

/-- Externally observable effects of one `writeTempPart` call, in program
order. -/
inductive Effect where
  | incAlreadySorted
  | reserveSpace (expectedBytes : Nat)
  | createDirectories
  | writeData (rows : List Row) (perm : Option (List Nat))
  | projWrite (name : String) (rows : List Row)
  | finalizeAsync
deriving DecidableEq, Repr

/-- Input of one `writeTempPart` call: the sub-block with its partition tuple
(`BlockWithPartition`) and the schema snapshot fields the call reads. -/
structure WriterInput where
  rows : List Row
  partitionTuple : Row
  sortCols : List Nat
  minmaxCols : List Nat
  optimizeOnInsert : Bool
  mode : MergingMode
  formatVersionOld : Bool
  datePos : Nat
  ttls : TTLInputs
  projections : List Projection

/-- Block and permutation pointer after the optional `optimize_on_insert`
reduction (source lines 342-357): the sort phase's permutation, then
`mergeBlock` when the setting is on (which leaves Ordinary blocks alone and
otherwise replaces the block and clears the permutation). -/
def reducedBlock (reduce : MergingMode → List Row → List Row)
    (inp : WriterInput) : List Row × Option (List Nat) :=
  let sp := sortPhase inp.rows inp.sortCols
  if inp.optimizeOnInsert then mergeBlockResult reduce inp.mode inp.rows sp.1
  else (inp.rows, sp.1)

/-- Projection sub-parts the call produces (source lines 457-468): each
projection is computed from the reduced block, projections with zero rows are
skipped entirely, the rest are written through `writeProjectionPartImpl`. -/
def projPartsOf (reduce : MergingMode → List Row → List Row)
    (inp : WriterInput) : List ProjPart :=
  inp.projections.filterMap (fun p =>
    let pb := p.calcBlock (reducedBlock reduce inp).1
    if pb.length = 0 then none
    else some (writeProjectionPartImpl reduce p pb))

/-- Write tail of `writeTempPart` once the TTL phase has succeeded: the part
descriptor is assembled (source lines 386-405), the main block is written
with the remaining permutation (455), the projection loop runs (457-468) and
finalization is scheduled (470-477). -/
def writeTempPartWrite (reduce : MergingMode → List Row → List Row)
    (inp : WriterInput) (pname : PartName) (tempIndex : Nat)
    (effs2 : List Effect) (ttlInfos : PartTTLInfos) :
    Except WErr TemporaryPart × List Effect :=
  let rb := reducedBlock reduce inp
  let projParts := projPartsOf reduce inp
  let pd : PartDescriptor :=
    ⟨pname, ⟨tempIndex, tempIndex, 0⟩, inp.partitionTuple,
     minMaxOf inp.rows inp.minmaxCols, rb.1.length, ttlInfos, true, projParts⟩
  (.ok ⟨some pd, true, projParts.map (fun pp => pp.name) ++ ["main"], true⟩,
   effs2 ++ [.writeData (applyPerm rb.2 rb.1) rb.2]
     ++ projParts.map (fun pp => .projWrite pp.name pp.rows)
     ++ [.finalizeAsync])

/-- TTL stage of the `writeTempPart` tail: space reservation (source line
372), directory creation (407-426), then the non-move TTL categories
(428-444). -/
def writeTempPartTTLs (reduce : MergingMode → List Row → List Row)
    (fromDayNum : Nat → Nat) (inp : WriterInput) (pname : PartName)
    (tempIndex : Nat) (effs0 : List Effect)
    (movesMap : List (String × TTLInfo)) :
    Except WErr TemporaryPart × List Effect :=
  let effs2 := effs0 ++ [.reserveSpace (blockBytes (reducedBlock reduce inp).1),
    .createDirectories]
  match processTTLsRows fromDayNum inp.ttls (reducedBlock reduce inp).1 movesMap with
  | .error e => (.error e, effs2)
  | .ok ttlInfos => writeTempPartWrite reduce inp pname tempIndex effs2 ttlInfos

/-- Tail of `writeTempPart` after the sort, reduction and empty check,
starting with the move TTLs (source lines 367-370). -/
def writeTempPartFull (reduce : MergingMode → List Row → List Row)
    (fromDayNum : Nat → Nat) (inp : WriterInput) (pname : PartName)
    (tempIndex : Nat) (effs0 : List Effect) :
    Except WErr TemporaryPart × List Effect :=
  match foldTTLCategory fromDayNum (reducedBlock reduce inp).1 false
      inp.ttls.moveTTLs [] none none with
  | .error e => (.error e, effs0)
  | .ok (movesMap, _, _) =>
    writeTempPartTTLs reduce fromDayNum inp pname tempIndex effs0 movesMap

/-- Profile-event effect of the sort phase. -/
def sortEffs (inp : WriterInput) : List Effect :=
  if (sortPhase inp.rows inp.sortCols).2 then [.incAlreadySorted] else []

/-- Embedding of `MergeTreeDataWriter::writeTempPart` (source lines 282-484):
draw the temp index from the process-wide insert counter once (297), compute
the minmax index on the incoming block (299-300), name the part (304-322),
acquire the temporary-directory lock (325), run the sort phase (342-353),
apply the optional reduction (356-357), and return an empty `TemporaryPart`
when the reduced block has zero bytes (359-365); otherwise continue with
`writeTempPartFull`.  Returns the result, the new counter value and the
effect trace. -/
def writeTempPart (reduce : MergingMode → List Row → List Row)
    (fromDayNum monthOf : Nat → Nat) (inp : WriterInput) (ctr : Nat) :
    Except WErr TemporaryPart × Nat × List Effect :=
  match computePartName inp.formatVersionOld monthOf
      (minMaxOf inp.rows inp.minmaxCols) inp.datePos inp.partitionTuple ctr with
  | .error e => (.error e, ctr + 1, [])
  | .ok pname =>
    if blockBytes (reducedBlock reduce inp).1 = 0 then
      (.ok ⟨none, false, [], true⟩, ctr + 1, sortEffs inp)
    else
      ((writeTempPartFull reduce fromDayNum inp pname ctr (sortEffs inp)).1, ctr + 1,
       (writeTempPartFull reduce fromDayNum inp pname ctr (sortEffs inp)).2)

/-- Rows carried by the main write effect of a trace. -/
def writtenRowsOf : List Effect → List Row
  | [] => []
  | .writeData rs _ :: _ => rs
  | _ :: es => writtenRowsOf es

theorem writeTempPart_name_err (reduce : MergingMode → List Row → List Row)
    (fromDayNum monthOf : Nat → Nat) (inp : WriterInput) (ctr : Nat) (e : WErr)
    (hn : computePartName inp.formatVersionOld monthOf
      (minMaxOf inp.rows inp.minmaxCols) inp.datePos inp.partitionTuple ctr
      = .error e) :
    writeTempPart reduce fromDayNum monthOf inp ctr = (.error e, ctr + 1, []) := by
  unfold writeTempPart
  rw [hn]

theorem writeTempPart_empty (reduce : MergingMode → List Row → List Row)
    (fromDayNum monthOf : Nat → Nat) (inp : WriterInput) (ctr : Nat)
    (pname : PartName)
    (hn : computePartName inp.formatVersionOld monthOf
      (minMaxOf inp.rows inp.minmaxCols) inp.datePos inp.partitionTuple ctr
      = .ok pname)
    (hb : blockBytes (reducedBlock reduce inp).1 = 0) :
    writeTempPart reduce fromDayNum monthOf inp ctr
      = (.ok ⟨none, false, [], true⟩, ctr + 1, sortEffs inp) := by
  unfold writeTempPart
  rw [hn]
  show (if blockBytes (reducedBlock reduce inp).1 = 0 then
      ((.ok ⟨none, false, [], true⟩ : Except WErr TemporaryPart), ctr + 1, sortEffs inp)
    else
      ((writeTempPartFull reduce fromDayNum inp pname ctr (sortEffs inp)).1, ctr + 1,
       (writeTempPartFull reduce fromDayNum inp pname ctr (sortEffs inp)).2)) = _
  rw [if_pos hb]

theorem writeTempPart_nonempty (reduce : MergingMode → List Row → List Row)
    (fromDayNum monthOf : Nat → Nat) (inp : WriterInput) (ctr : Nat)
    (pname : PartName)
    (hn : computePartName inp.formatVersionOld monthOf
      (minMaxOf inp.rows inp.minmaxCols) inp.datePos inp.partitionTuple ctr
      = .ok pname)
    (hb : blockBytes (reducedBlock reduce inp).1 ≠ 0) :
    writeTempPart reduce fromDayNum monthOf inp ctr
      = ((writeTempPartFull reduce fromDayNum inp pname ctr (sortEffs inp)).1, ctr + 1,
         (writeTempPartFull reduce fromDayNum inp pname ctr (sortEffs inp)).2) := by
  unfold writeTempPart
  rw [hn]
  show (if blockBytes (reducedBlock reduce inp).1 = 0 then
      ((.ok ⟨none, false, [], true⟩ : Except WErr TemporaryPart), ctr + 1, sortEffs inp)
    else
      ((writeTempPartFull reduce fromDayNum inp pname ctr (sortEffs inp)).1, ctr + 1,
       (writeTempPartFull reduce fromDayNum inp pname ctr (sortEffs inp)).2)) = _
  rw [if_neg hb]

theorem writeTempPart_counter (reduce : MergingMode → List Row → List Row)
    (fromDayNum monthOf : Nat → Nat) (inp : WriterInput) (ctr : Nat) :
    (writeTempPart reduce fromDayNum monthOf inp ctr).2.1 = ctr + 1 := by
  cases hn : computePartName inp.formatVersionOld monthOf
      (minMaxOf inp.rows inp.minmaxCols) inp.datePos inp.partitionTuple ctr with
  | error e => rw [writeTempPart_name_err reduce fromDayNum monthOf inp ctr e hn]
  | ok pname =>
    by_cases hb : blockBytes (reducedBlock reduce inp).1 = 0
    · rw [writeTempPart_empty reduce fromDayNum monthOf inp ctr pname hn hb]
    · rw [writeTempPart_nonempty reduce fromDayNum monthOf inp ctr pname hn hb]

theorem writeTempPartFull_eq_ok (reduce : MergingMode → List Row → List Row)
    (fromDayNum : Nat → Nat) (inp : WriterInput) (pname : PartName)
    (tempIndex : Nat) (effs0 : List Effect)
    (movesMap : List (String × TTLInfo)) (pmM pxM : Option Nat)
    (ttlInfos : PartTTLInfos)
    (h1 : foldTTLCategory fromDayNum (reducedBlock reduce inp).1 false
      inp.ttls.moveTTLs [] none none = .ok (movesMap, pmM, pxM))
    (h2 : processTTLsRows fromDayNum inp.ttls (reducedBlock reduce inp).1 movesMap
      = .ok ttlInfos) :
    writeTempPartFull reduce fromDayNum inp pname tempIndex effs0 =
      writeTempPartWrite reduce inp pname tempIndex
        (effs0 ++ [.reserveSpace (blockBytes (reducedBlock reduce inp).1),
          .createDirectories]) ttlInfos := by
  unfold writeTempPartFull
  rw [h1]
  show writeTempPartTTLs reduce fromDayNum inp pname tempIndex effs0 movesMap = _
  simp only [writeTempPartTTLs]
  rw [h2]

theorem writeTempPartFull_inv (reduce : MergingMode → List Row → List Row)
    (fromDayNum : Nat → Nat) (inp : WriterInput) (pname : PartName)
    (tempIndex : Nat) (effs0 : List Effect) (tp : TemporaryPart)
    (hok : (writeTempPartFull reduce fromDayNum inp pname tempIndex effs0).1
      = .ok tp) :
    ∃ (movesMap : List (String × TTLInfo)) (pmM pxM : Option Nat)
      (ttlInfos : PartTTLInfos),
      foldTTLCategory fromDayNum (reducedBlock reduce inp).1 false
        inp.ttls.moveTTLs [] none none = .ok (movesMap, pmM, pxM) ∧
      processTTLsRows fromDayNum inp.ttls (reducedBlock reduce inp).1 movesMap
        = .ok ttlInfos := by
  unfold writeTempPartFull at hok
  cases h1 : foldTTLCategory fromDayNum (reducedBlock reduce inp).1 false
      inp.ttls.moveTTLs [] none none with
  | error e =>
    rw [h1] at hok
    exact Except.noConfusion hok
  | ok res1 =>
    obtain ⟨movesMap, pmM, pxM⟩ := res1
    rw [h1] at hok
    have hok1 : (writeTempPartTTLs reduce fromDayNum inp pname tempIndex effs0
        movesMap).1 = .ok tp := hok
    simp only [writeTempPartTTLs] at hok1
    cases h2 : processTTLsRows fromDayNum inp.ttls (reducedBlock reduce inp).1
        movesMap with
    | error e =>
      rw [h2] at hok1
      exact Except.noConfusion hok1
    | ok ttlInfos => exact ⟨movesMap, pmM, pxM, ttlInfos, rfl, h2⟩

theorem processTTLs_of_stages (fdn : Nat → Nat) (ttls : TTLInputs)
    (block : List Row) (movesMap : List (String × TTLInfo)) (pmM pxM : Option Nat)
    (ttlInfos : PartTTLInfos)
    (h1 : foldTTLCategory fdn block false ttls.moveTTLs [] none none
      = .ok (movesMap, pmM, pxM))
    (h2 : processTTLsRows fdn ttls block movesMap = .ok ttlInfos) :
    processTTLs fdn ttls block = .ok ttlInfos := by
  unfold processTTLs
  rw [h1]
  show processTTLsRows fdn ttls block movesMap = _
  rw [h2]

theorem writtenRowsOf_spine (inp : WriterInput) (b : Nat) (rs : List Row)
    (p : Option (List Nat)) (tail : List Effect) :
    writtenRowsOf ((sortEffs inp ++ [.reserveSpace b, .createDirectories])
      ++ [.writeData rs p] ++ tail) = rs := by
  unfold sortEffs
  by_cases hs : (sortPhase inp.rows inp.sortCols).2 <;>
    simp [hs, writtenRowsOf]

theorem writeTempPart_inv (reduce : MergingMode → List Row → List Row)
    (fromDayNum monthOf : Nat → Nat) (inp : WriterInput) (ctr : Nat)
    (tp : TemporaryPart) (pd : PartDescriptor)
    (hok : (writeTempPart reduce fromDayNum monthOf inp ctr).1 = .ok tp)
    (hpd : tp.part = some pd) :
    ∃ (pname : PartName) (ttlInfos : PartTTLInfos),
      computePartName inp.formatVersionOld monthOf
        (minMaxOf inp.rows inp.minmaxCols) inp.datePos inp.partitionTuple ctr
        = .ok pname ∧
      processTTLs fromDayNum inp.ttls (reducedBlock reduce inp).1 = .ok ttlInfos ∧
      blockBytes (reducedBlock reduce inp).1 ≠ 0 ∧
      pd = ⟨pname, ⟨ctr, ctr, 0⟩, inp.partitionTuple,
        minMaxOf inp.rows inp.minmaxCols, (reducedBlock reduce inp).1.length,
        ttlInfos, true, projPartsOf reduce inp⟩ ∧
      tp = ⟨some pd, true, (projPartsOf reduce inp).map (fun pp => pp.name)
        ++ ["main"], true⟩ ∧
      writtenRowsOf (writeTempPart reduce fromDayNum monthOf inp ctr).2.2
        = applyPerm (reducedBlock reduce inp).2 (reducedBlock reduce inp).1 := by
  cases hn : computePartName inp.formatVersionOld monthOf
      (minMaxOf inp.rows inp.minmaxCols) inp.datePos inp.partitionTuple ctr with
  | error e =>
    rw [writeTempPart_name_err reduce fromDayNum monthOf inp ctr e hn] at hok
    exact Except.noConfusion hok
  | ok pname =>
    by_cases hb : blockBytes (reducedBlock reduce inp).1 = 0
    · rw [writeTempPart_empty reduce fromDayNum monthOf inp ctr pname hn hb] at hok
      have hok2 : (.ok (⟨none, false, [], true⟩ : TemporaryPart) :
          Except WErr TemporaryPart) = .ok tp := hok
      injection hok2 with htp
      rw [← htp] at hpd
      exact Option.noConfusion hpd
    · rw [writeTempPart_nonempty reduce fromDayNum monthOf inp ctr pname hn hb] at hok
      have hokf : (writeTempPartFull reduce fromDayNum inp pname ctr
          (sortEffs inp)).1 = .ok tp := hok
      obtain ⟨movesMap, pmM, pxM, ttlInfos, h1, h2⟩ :=
        writeTempPartFull_inv reduce fromDayNum inp pname ctr (sortEffs inp) tp hokf
      have hfull := writeTempPartFull_eq_ok reduce fromDayNum inp pname ctr
        (sortEffs inp) movesMap pmM pxM ttlInfos h1 h2
      rw [hfull] at hokf
      have hokw : (.ok (⟨some ⟨pname, ⟨ctr, ctr, 0⟩, inp.partitionTuple,
          minMaxOf inp.rows inp.minmaxCols, (reducedBlock reduce inp).1.length,
          ttlInfos, true, projPartsOf reduce inp⟩, true,
          (projPartsOf reduce inp).map (fun pp => pp.name) ++ ["main"], true⟩ :
          TemporaryPart) : Except WErr TemporaryPart) = .ok tp := hokf
      injection hokw with htp
      have hpdeq : pd = ⟨pname, ⟨ctr, ctr, 0⟩, inp.partitionTuple,
          minMaxOf inp.rows inp.minmaxCols, (reducedBlock reduce inp).1.length,
          ttlInfos, true, projPartsOf reduce inp⟩ := by
        rw [← htp] at hpd
        injection hpd with h
        exact h.symm
      refine ⟨pname, ttlInfos, rfl,
        processTTLs_of_stages fromDayNum inp.ttls (reducedBlock reduce inp).1
          movesMap pmM pxM ttlInfos h1 h2, hb, hpdeq, ?_, ?_⟩
      · rw [← htp, hpdeq]
      · rw [writeTempPart_nonempty reduce fromDayNum monthOf inp ctr pname hn hb]
        show writtenRowsOf (writeTempPartFull reduce fromDayNum inp pname ctr
          (sortEffs inp)).2 = _
        rw [hfull]
        show writtenRowsOf (((sortEffs inp
          ++ [.reserveSpace (blockBytes (reducedBlock reduce inp).1),
              .createDirectories])
          ++ [.writeData (applyPerm (reducedBlock reduce inp).2
                (reducedBlock reduce inp).1) (reducedBlock reduce inp).2]
          ++ (projPartsOf reduce inp).map (fun pp => .projWrite pp.name pp.rows))
          ++ [.finalizeAsync]) = _
        rw [List.append_assoc]
        rw [writtenRowsOf_spine]

/-- Collapse adjacent rows with equal sort keys, keeping the later row. -/
def collapseKeepLast (cols : List Nat) : List Row → List Row
  | [] => []
  | [r] => [r]
  | a :: b :: rest =>
    if sortKey cols a = sortKey cols b then collapseKeepLast cols (b :: rest)
    else a :: collapseKeepLast cols (b :: rest)

/-- Replacing reduction of a single block.
Modelled from the spec (§4.3): within each equivalence class of rows equal on
the full sorting key keep one surviving row — the last in input order when no
version column is given — and emit classes in sort order; the algorithm lives
outside the covered source file. -/
def replacingReduce (sortCols : List Nat) (rows : List Row) : List Row :=
  collapseKeepLast sortCols (emittedRows rows sortCols)

/-- Reduction used by the C1 counterexample: Replacing on sort column 0. -/
def c1Reduce : MergingMode → List Row → List Row :=
  fun _ rows => replacingReduce [0] rows

/-- Input of the C1 counterexample: two rows equal on the sorting key
(column 0) with different values in the partition-source column (column 1,
the minmax column); the Replacing reduction keeps only the later row. -/
def c1Input : WriterInput :=
  ⟨[[1, 5], [1, 9]], [0], [0], [1], true, .Replacing, false, 0,
   ⟨none, [], [], [], [], []⟩, []⟩

/-- Part descriptor of a writer result, when one was produced. -/
def partOf (r : Except WErr TemporaryPart) : Option PartDescriptor :=
  match r with
  | .ok tp => tp.part
  | .error _ => none

/-- Counterexample to C1 as stated: with `optimize_on_insert` on a Replacing
table, the part's MinMaxIndex is `[5, 9]` — the interval of the
pre-reduction rows — while the rows actually written span only `[9, 9]`,
because the index is computed (source line 300) before the reduction (source
line 357) removes the surviving class member's sibling. -/
theorem claim_C1_counterexample :
    (partOf (writeTempPart c1Reduce id id c1Input 0).1).map (fun pd => pd.minmax)
      = some [(5, 9)] ∧
    minMaxOf (writtenRowsOf (writeTempPart c1Reduce id id c1Input 0).2.2)
      c1Input.minmaxCols = [(9, 9)] ∧
    (partOf (writeTempPart c1Reduce id id c1Input 0).1).map (fun pd => pd.minmax)
      ≠ some (minMaxOf (writtenRowsOf (writeTempPart c1Reduce id id c1Input 0).2.2)
          c1Input.minmaxCols) := by
  refine ⟨by rfl, by rfl, by decide⟩

theorem applyPerm_sortPhase_mem (rows : List Row) (cols : List Nat) :
    ∀ r ∈ applyPerm (sortPhase rows cols).1 rows, r ∈ rows := by
  intro r hr
  unfold sortPhase at hr
  by_cases hc : cols = []
  · rw [if_pos hc] at hr
    exact hr
  · rw [if_neg hc] at hr
    by_cases hs : isAlreadySorted rows cols = true
    · rw [if_pos hs] at hr
      exact hr
    · rw [if_neg hs] at hr
      simp only [applyPerm, List.mem_map] at hr
      obtain ⟨i, hi, hrr⟩ := hr
      have hirange : i ∈ List.range rows.length :=
        (stableGetPermutation_perm rows cols).mem_iff.mp hi
      have hilt : i < rows.length := List.mem_range.mp hirange
      rw [← hrr]
      rw [List.getD_eq_getElem?_getD, List.getElem?_eq_getElem hilt]
      exact List.getElem_mem hilt

theorem written_mem_input (reduce : MergingMode → List Row → List Row)
    (inp : WriterInput)
    (hred : ∀ (m : MergingMode) (rs : List Row), ∀ r ∈ reduce m rs, r ∈ rs) :
    ∀ r ∈ applyPerm (reducedBlock reduce inp).2 (reducedBlock reduce inp).1,
      r ∈ inp.rows := by
  intro r hr
  unfold reducedBlock at hr
  by_cases hopt : inp.optimizeOnInsert = true
  · rw [if_pos hopt] at hr
    unfold mergeBlockResult at hr
    by_cases hmode : inp.mode = .Ordinary
    · rw [if_pos hmode] at hr
      exact applyPerm_sortPhase_mem inp.rows inp.sortCols r hr
    · rw [if_neg hmode] at hr
      exact hred inp.mode inp.rows r hr
  · rw [if_neg (by simpa using hopt)] at hr
    exact applyPerm_sortPhase_mem inp.rows inp.sortCols r hr

/-- C1 (amended): the part's MinMaxIndex holds the per-column `[min, max]`
interval of the pre-reduction input rows, not of the rows actually written;
since every written row comes from the input (for reducers that only keep
input rows), the written rows still lie inside the recorded intervals, which
may however be strictly wider than the written rows' span. -/
theorem claim_C1_amended (reduce : MergingMode → List Row → List Row)
    (fromDayNum monthOf : Nat → Nat) (inp : WriterInput) (ctr : Nat)
    (tp : TemporaryPart) (pd : PartDescriptor)
    (hred : ∀ (m : MergingMode) (rs : List Row), ∀ r ∈ reduce m rs, r ∈ rs)
    (hok : (writeTempPart reduce fromDayNum monthOf inp ctr).1 = .ok tp)
    (hpd : tp.part = some pd) :
    pd.minmax = minMaxOf inp.rows inp.minmaxCols ∧
    ∀ r ∈ writtenRowsOf (writeTempPart reduce fromDayNum monthOf inp ctr).2.2,
      ∀ i : Nat, i < inp.minmaxCols.length →
        (pd.minmax.getD i (0, 0)).1 ≤ r.getD (inp.minmaxCols.getD i 0) 0 ∧
        r.getD (inp.minmaxCols.getD i 0) 0 ≤ (pd.minmax.getD i (0, 0)).2 := by
  obtain ⟨pname, ttlInfos, _, _, _, hpdeq, _, hwritten⟩ :=
    writeTempPart_inv reduce fromDayNum monthOf inp ctr tp pd hok hpd
  have hmm : pd.minmax = minMaxOf inp.rows inp.minmaxCols := by
    rw [hpdeq]
  refine ⟨hmm, ?_⟩
  intro r hr i hi
  rw [hwritten] at hr
  have hrin : r ∈ inp.rows := written_mem_input reduce inp hred r hr
  rw [hmm]
  exact minMaxOf_bounds inp.rows inp.minmaxCols r hrin i hi

/-- Reduction used by the C1 amended witness: keep the block unchanged. -/
def c1WitReduce : MergingMode → List Row → List Row := fun _ rows => rows

/-- Part descriptor the writer produces on the C1 witness input. -/
def c1WitPd : PartDescriptor :=
  ⟨.v1 [0] 0 0 0, ⟨0, 0, 0⟩, [0], [(5, 9)], 2,
   ⟨⟨none, none⟩, [], [], [], [], [], none, none⟩, true, []⟩

/-- Witness for the amended C1 at a concrete input: the recorded index is the
input interval and it bounds every written row. -/
theorem claim_C1_amended_witness :
    c1WitPd.minmax = minMaxOf c1Input.rows c1Input.minmaxCols ∧
    ∀ r ∈ writtenRowsOf (writeTempPart c1WitReduce id id c1Input 0).2.2,
      ∀ i : Nat, i < c1Input.minmaxCols.length →
        (c1WitPd.minmax.getD i (0, 0)).1 ≤ r.getD (c1Input.minmaxCols.getD i 0) 0 ∧
        r.getD (c1Input.minmaxCols.getD i 0) 0 ≤ (c1WitPd.minmax.getD i (0, 0)).2 :=
  claim_C1_amended c1WitReduce id id c1Input 0
    ⟨some c1WitPd, true, ["main"], true⟩ c1WitPd
    (fun _ _ _ h => h) (by rfl) (by rfl)

/-- C6: when the `optimize_on_insert` reduction leaves the block with zero
bytes, `writeTempPart` returns an empty `TemporaryPart` — no part descriptor,
no storage builder, no streams — without raising an error, and its effect
trace contains no reservation, no directory creation, no data write, no
projection write and no finalization (at most the already-sorted profile
event). -/
theorem claim_C6 (reduce : MergingMode → List Row → List Row)
    (fromDayNum monthOf : Nat → Nat) (inp : WriterInput) (ctr : Nat)
    (pname : PartName)
    (hopt : inp.optimizeOnInsert = true)
    (hn : computePartName inp.formatVersionOld monthOf
      (minMaxOf inp.rows inp.minmaxCols) inp.datePos inp.partitionTuple ctr
      = .ok pname)
    (hb : blockBytes (reducedBlock reduce inp).1 = 0) :
    (writeTempPart reduce fromDayNum monthOf inp ctr).1
      = .ok ⟨none, false, [], true⟩ ∧
    ∀ e ∈ (writeTempPart reduce fromDayNum monthOf inp ctr).2.2,
      e = Effect.incAlreadySorted := by
  rw [writeTempPart_empty reduce fromDayNum monthOf inp ctr pname hn hb]
  refine ⟨rfl, ?_⟩
  intro e he
  unfold sortEffs at he
  by_cases hs : (sortPhase inp.rows inp.sortCols).2 = true
  · rw [if_pos hs] at he
    simpa using he
  · rw [if_neg hs] at he
    simp at he

/-- Reduction used by the C6 witness: a Collapsing run that cancels every
row. -/
def c6Reduce : MergingMode → List Row → List Row := fun _ _ => []

/-- Input of the C6 witness: a Collapsing table whose two rows cancel. -/
def c6Input : WriterInput :=
  ⟨[[1, 1], [1, 0]], [], [0], [0], true, .Collapsing, false, 0,
   ⟨none, [], [], [], [], []⟩, []⟩

/-- Witness for C6: the cancelled block produces the empty `TemporaryPart`
and only the already-sorted profile event. -/
theorem claim_C6_witness :
    (writeTempPart c6Reduce id id c6Input 0).1 = .ok ⟨none, false, [], true⟩ ∧
    ∀ e ∈ (writeTempPart c6Reduce id id c6Input 0).2.2,
      e = Effect.incAlreadySorted :=
  claim_C6 c6Reduce id id c6Input 0 (.v1 [] 0 0 0) (by rfl) (by rfl) (by rfl)

/-- C8: the writer draws the temp index from the process-wide monotonic
insert counter exactly once per call (the counter advances by one even on
failure); when the format version predates custom partitioning the part name
uses the v0 encoding built from the minmax date column's minimum and maximum
dates and the call fails with `LOGICAL_ERROR` when those dates fall in
different months; otherwise the v1 encoding is used; in both encodings the
block numbers satisfy `lo = hi = temp_index` and `level = 0`. -/
theorem claim_C8 (reduce : MergingMode → List Row → List Row)
    (fromDayNum monthOf : Nat → Nat) (inp : WriterInput) (ctr : Nat) :
    (writeTempPart reduce fromDayNum monthOf inp ctr).2.1 = ctr + 1 ∧
    (inp.formatVersionOld = true →
      (monthOf ((minMaxOf inp.rows inp.minmaxCols).getD inp.datePos (0, 0)).1
          ≠ monthOf ((minMaxOf inp.rows inp.minmaxCols).getD inp.datePos (0, 0)).2 →
        (writeTempPart reduce fromDayNum monthOf inp ctr).1
          = .error .logicalError) ∧
      (∀ (tp : TemporaryPart) (pd : PartDescriptor),
        (writeTempPart reduce fromDayNum monthOf inp ctr).1 = .ok tp →
        tp.part = some pd →
        pd.name = .v0 ((minMaxOf inp.rows inp.minmaxCols).getD inp.datePos (0, 0)).1
          ((minMaxOf inp.rows inp.minmaxCols).getD inp.datePos (0, 0)).2 ctr ctr 0 ∧
        pd.info = ⟨ctr, ctr, 0⟩ ∧
        monthOf ((minMaxOf inp.rows inp.minmaxCols).getD inp.datePos (0, 0)).1
          = monthOf ((minMaxOf inp.rows inp.minmaxCols).getD inp.datePos (0, 0)).2)) ∧
    (inp.formatVersionOld = false →
      ∀ (tp : TemporaryPart) (pd : PartDescriptor),
        (writeTempPart reduce fromDayNum monthOf inp ctr).1 = .ok tp →
        tp.part = some pd →
        pd.name = .v1 inp.partitionTuple ctr ctr 0 ∧ pd.info = ⟨ctr, ctr, 0⟩) := by
  refine ⟨writeTempPart_counter reduce fromDayNum monthOf inp ctr, ?_, ?_⟩
  · intro hold
    constructor
    · intro hm
      have hn : computePartName inp.formatVersionOld monthOf
          (minMaxOf inp.rows inp.minmaxCols) inp.datePos inp.partitionTuple ctr
          = .error .logicalError := by
        unfold computePartName
        rw [hold]
        simp only [if_true]
        rw [if_pos hm]
      rw [writeTempPart_name_err reduce fromDayNum monthOf inp ctr _ hn]
    · intro tp pd hok hpd
      obtain ⟨pname, ttlInfos, hn, _, _, hpdeq, _, _⟩ :=
        writeTempPart_inv reduce fromDayNum monthOf inp ctr tp pd hok hpd
      by_cases hm : monthOf ((minMaxOf inp.rows inp.minmaxCols).getD inp.datePos (0, 0)).1
          = monthOf ((minMaxOf inp.rows inp.minmaxCols).getD inp.datePos (0, 0)).2
      · have hn2 : computePartName inp.formatVersionOld monthOf
            (minMaxOf inp.rows inp.minmaxCols) inp.datePos inp.partitionTuple ctr
            = .ok (.v0 ((minMaxOf inp.rows inp.minmaxCols).getD inp.datePos (0, 0)).1
              ((minMaxOf inp.rows inp.minmaxCols).getD inp.datePos (0, 0)).2 ctr ctr 0) := by
          unfold computePartName
          rw [hold]
          simp only [if_true]
          rw [if_neg (by simpa using hm)]
        rw [hn] at hn2
        injection hn2 with hpname
        refine ⟨?_, ?_, hm⟩
        · rw [hpdeq, ← hpname]
        · rw [hpdeq]
      · have hn2 : computePartName inp.formatVersionOld monthOf
            (minMaxOf inp.rows inp.minmaxCols) inp.datePos inp.partitionTuple ctr
            = .error .logicalError := by
          unfold computePartName
          rw [hold]
          simp only [if_true]
          rw [if_pos hm]
        rw [hn] at hn2
        exact Except.noConfusion hn2
  · intro hnew tp pd hok hpd
    obtain ⟨pname, ttlInfos, hn, _, _, hpdeq, _, _⟩ :=
      writeTempPart_inv reduce fromDayNum monthOf inp ctr tp pd hok hpd
    have hn2 : computePartName inp.formatVersionOld monthOf
        (minMaxOf inp.rows inp.minmaxCols) inp.datePos inp.partitionTuple ctr
        = .ok (.v1 inp.partitionTuple ctr ctr 0) := by
      unfold computePartName
      rw [hnew]
      simp only [Bool.false_eq_true, if_false]
    rw [hn] at hn2
    injection hn2 with hpname
    constructor
    · rw [hpdeq, ← hpname]
    · rw [hpdeq]

/-- Reduction used by the C8 witness: keep the block unchanged. -/
def c8Reduce : MergingMode → List Row → List Row := fun _ rows => rows

/-- Input of the C8 witness: an old-format table whose single date value
keeps min and max in the same month. -/
def c8Input : WriterInput :=
  ⟨[[5]], [], [0], [0], false, .Ordinary, true, 0,
   ⟨none, [], [], [], [], []⟩, []⟩

/-- Input of the C8 error witness: an old-format table whose date column
spans two months under the identity month function. -/
def c8InputBad : WriterInput :=
  ⟨[[5], [40]], [], [0], [0], false, .Ordinary, true, 0,
   ⟨none, [], [], [], [], []⟩, []⟩

/-- Witness for C8: the counter advances by one, the produced part carries
the v0 name `5_5_0_0_0`, and the month-spanning input fails with
`LOGICAL_ERROR`. -/
theorem claim_C8_witness :
    (writeTempPart c8Reduce id id c8Input 0).2.1 = 0 + 1 ∧
    (∀ (tp : TemporaryPart) (pd : PartDescriptor),
      (writeTempPart c8Reduce id id c8Input 0).1 = .ok tp → tp.part = some pd →
      pd.name = .v0 ((minMaxOf c8Input.rows c8Input.minmaxCols).getD c8Input.datePos (0, 0)).1
        ((minMaxOf c8Input.rows c8Input.minmaxCols).getD c8Input.datePos (0, 0)).2 0 0 0 ∧
      pd.info = ⟨0, 0, 0⟩ ∧
      id ((minMaxOf c8Input.rows c8Input.minmaxCols).getD c8Input.datePos (0, 0)).1
        = id ((minMaxOf c8Input.rows c8Input.minmaxCols).getD c8Input.datePos (0, 0)).2) ∧
    (writeTempPart c8Reduce id id c8InputBad 0).1 = .error .logicalError :=
  ⟨(claim_C8 c8Reduce id id c8Input 0).1,
   ((claim_C8 c8Reduce id id c8Input 0).2.1 rfl).2,
   ((claim_C8 c8Reduce id id c8InputBad 0).2.1 rfl).1 (by decide)⟩

/-- C4: for a non-empty sorting key the sort phase emits the rows in
lexicographic non-decreasing order over the sort columns through a stable
permutation (ties keep input order); a block detected as already sorted by
the single linear pass records the profile event and computes no
permutation; an empty sorting key computes no permutation and records no
event; and on a run without reduction the rows `writeTempPart` hands to the
serializer are exactly the sort phase's emission. -/
theorem claim_C4 (rows : List Row) (cols : List Nat) :
    (cols ≠ [] → ∃ perm : List Nat, perm.Perm (List.range rows.length) ∧
      emittedRows rows cols = perm.map (fun i => rows.getD i []) ∧
      perm.Pairwise (SortRel (fun j => sortKey cols (rows.getD j [])))) ∧
    (cols ≠ [] → isAlreadySorted rows cols = true →
      sortPhase rows cols = (none, true)) ∧
    (cols ≠ [] → isAlreadySorted rows cols = false →
      sortPhase rows cols = (some (stableGetPermutation rows cols), false)) ∧
    (cols = [] → sortPhase rows cols = (none, false)) ∧
    (∀ (reduce : MergingMode → List Row → List Row)
      (fromDayNum monthOf : Nat → Nat) (inp : WriterInput) (ctr : Nat)
      (tp : TemporaryPart) (pd : PartDescriptor),
      inp.rows = rows → inp.sortCols = cols → inp.optimizeOnInsert = false →
      (writeTempPart reduce fromDayNum monthOf inp ctr).1 = .ok tp →
      tp.part = some pd →
      writtenRowsOf (writeTempPart reduce fromDayNum monthOf inp ctr).2.2
        = emittedRows rows cols) := by
  refine ⟨fun _ => emittedRows_sorted_stable rows cols, ?_, ?_, ?_, ?_⟩
  · intro hc hs
    unfold sortPhase
    rw [if_neg hc, if_pos hs]
  · intro hc hs
    unfold sortPhase
    rw [if_neg hc, if_neg (by simp [hs])]
  · intro hc
    unfold sortPhase
    rw [if_pos hc]
  · intro reduce fromDayNum monthOf inp ctr tp pd hr hc hopt hok hpd
    obtain ⟨pname, ttlInfos, _, _, _, _, _, hwritten⟩ :=
      writeTempPart_inv reduce fromDayNum monthOf inp ctr tp pd hok hpd
    rw [hwritten]
    have hrb : reducedBlock reduce inp
        = (inp.rows, (sortPhase inp.rows inp.sortCols).1) := by
      unfold reducedBlock
      rw [if_neg (by simp [hopt])]
    rw [hrb, hr, hc]
    rfl

/-- Witness for C4: an unsorted two-row block gets the stable permutation and
no event, its sorted mirror gets the event and no permutation, and an empty
key gets neither. -/
theorem claim_C4_witness :
    sortPhase [[2], [1]] [0] = (some (stableGetPermutation [[2], [1]] [0]), false) ∧
    sortPhase [[1], [2]] [0] = (none, true) ∧
    sortPhase [[2], [1]] [] = (none, false) :=
  ⟨(claim_C4 [[2], [1]] [0]).2.2.1 (by decide) (by decide),
   (claim_C4 [[1], [2]] [0]).2.1 (by decide) (by decide),
   (claim_C4 [[2], [1]] []).2.2.2.1 rfl⟩

/-- C9: the projection sub-parts a call records are computed from the
already-reduced main block; projections whose computed block has zero rows
contribute no sub-part; and a projection of Aggregate type is reduced with
`MergingMode = Aggregating` regardless of the table's own merging mode. -/
theorem claim_C9 (reduce : MergingMode → List Row → List Row)
    (fromDayNum monthOf : Nat → Nat) (inp : WriterInput) (ctr : Nat)
    (tp : TemporaryPart) (pd : PartDescriptor)
    (hok : (writeTempPart reduce fromDayNum monthOf inp ctr).1 = .ok tp)
    (hpd : tp.part = some pd) :
    pd.projParts = inp.projections.filterMap (fun p =>
      if (p.calcBlock (reducedBlock reduce inp).1).length = 0 then none
      else some (writeProjectionPartImpl reduce p
        (p.calcBlock (reducedBlock reduce inp).1))) ∧
    (∀ pp ∈ pd.projParts, ∃ p ∈ inp.projections,
      (p.calcBlock (reducedBlock reduce inp).1).length ≠ 0 ∧
      pp = writeProjectionPartImpl reduce p
        (p.calcBlock (reducedBlock reduce inp).1)) ∧
    (∀ p ∈ inp.projections, p.ptype = .Aggregate →
      (p.calcBlock (reducedBlock reduce inp).1).length ≠ 0 →
      ∃ pp ∈ pd.projParts, pp.name = p.name ∧
        pp.rows = reduce .Aggregating (p.calcBlock (reducedBlock reduce inp).1)) := by
  obtain ⟨pname, ttlInfos, _, _, _, hpdeq, _, _⟩ :=
    writeTempPart_inv reduce fromDayNum monthOf inp ctr tp pd hok hpd
  have hproj : pd.projParts = projPartsOf reduce inp := by
    rw [hpdeq]
  refine ⟨hproj, ?_, ?_⟩
  · intro pp hpp
    rw [hproj] at hpp
    obtain ⟨p, hp, hf⟩ := List.mem_filterMap.mp hpp
    have hf2 : (if (p.calcBlock (reducedBlock reduce inp).1).length = 0 then none
        else some (writeProjectionPartImpl reduce p
          (p.calcBlock (reducedBlock reduce inp).1))) = some pp := hf
    by_cases h0 : (p.calcBlock (reducedBlock reduce inp).1).length = 0
    · rw [if_pos h0] at hf2
      exact Option.noConfusion hf2
    · rw [if_neg h0] at hf2
      injection hf2 with h
      exact ⟨p, hp, h0, h.symm⟩
  · intro p hp hagg h0
    refine ⟨writeProjectionPartImpl reduce p (p.calcBlock (reducedBlock reduce inp).1),
      ?_, rfl, ?_⟩
    · rw [hproj]
      refine List.mem_filterMap.mpr ⟨p, hp, ?_⟩
      show (if (p.calcBlock (reducedBlock reduce inp).1).length = 0 then none
        else some (writeProjectionPartImpl reduce p
          (p.calcBlock (reducedBlock reduce inp).1))) = _
      rw [if_neg h0]
    · simp only [writeProjectionPartImpl]
      rw [if_pos hagg]
      simp only [mergeBlockResult]
      rw [if_neg (by decide)]
      rfl

/-- Projection used by the C9 witness: an Aggregate projection keeping the
block. -/
def c9Proj : Projection := ⟨"agg", .Aggregate, fun rows => rows, [0]⟩

/-- Projection used by the C9 witness whose computed block is empty. -/
def c9ProjEmpty : Projection := ⟨"empty", .Normal, fun _ => [], [0]⟩

/-- Reduction used by the C9 witness: Aggregating keeps the first row of the
block, other modes keep the block. -/
def c9Reduce : MergingMode → List Row → List Row :=
  fun m rows => if m = .Aggregating then rows.take 1 else rows

/-- Input of the C9 witness: an Ordinary table carrying one Aggregate
projection and one projection computing an empty block. -/
def c9Input : WriterInput :=
  ⟨[[3], [4]], [], [0], [0], false, .Ordinary, false, 0,
   ⟨none, [], [], [], [], []⟩, [c9Proj, c9ProjEmpty]⟩

/-- Part descriptor produced by the C9 witness run. -/
def c9Pd : PartDescriptor :=
  ⟨.v1 [] 0 0 0, ⟨0, 0, 0⟩, [], [(3, 4)], 2,
   ⟨⟨none, none⟩, [], [], [], [], [], none, none⟩, true,
   [⟨"agg", [[3]], ⟨0, 0, 0⟩, false⟩]⟩

/-- Temporary part produced by the C9 witness run. -/
def c9Tp : TemporaryPart := ⟨some c9Pd, true, ["agg", "main"], true⟩

/-- Witness for C9: on the concrete input the call succeeds and the recorded
projection parts are exactly the Aggregate projection's, reduced with the
Aggregating mode (keeping one row), while the empty projection is skipped. -/
theorem claim_C9_witness :
    (writeTempPart c9Reduce id id c9Input 0).1 = .ok c9Tp ∧ c9Tp.part = some c9Pd ∧
    (∀ p ∈ c9Input.projections, p.ptype = .Aggregate →
      (p.calcBlock (reducedBlock c9Reduce c9Input).1).length ≠ 0 →
      ∃ pp ∈ c9Pd.projParts, pp.name = p.name ∧
        pp.rows = c9Reduce .Aggregating
          (p.calcBlock (reducedBlock c9Reduce c9Input).1)) :=
  ⟨by rfl, rfl, (claim_C9 c9Reduce id id c9Input 0 c9Tp c9Pd (by rfl) rfl).2.2⟩
